import Mathlib

/-!
Shallow embedding of the `validate` Go package (github.com/teamwork/validate):
a field-level validation helper accumulating error messages per field key.

Modelling conventions:
* Go strings are modelled as Lean `String` (sequences of Unicode code points);
  `utf8.RuneCountInString` is `String.length`.
* The Go map `map[string][]string` is modelled as an association list
  `List (String × List String)`; Go guarantees unique keys, which theorems
  assume via an explicit `keysNodup` hypothesis where it matters.  Go map
  iteration order is unspecified; all map-level claims are therefore stated
  via `lookupKey` (per-key message lists) or proved for the canonical
  insertion order, which the operations below preserve deterministically.
* A Go `panic` is modelled by returning `none`; every check panics (if at
  all) before mutating the aggregate, so no partial state is lost.
* External collaborators (`net/url.Parse`, `mailaddress.Parse`,
  `time.Parse`, `net.ParseIP`, the Unicode-letter class of `regexp`) are
  taken as explicit function parameters; the checks' own control flow is
  translated from the source.
-/

namespace Validate

/-- An argument passed to Go's printf-style formatting; the package only
ever formats `%d` with ints and `%s` with strings (or errors, via their
`Error()` text). -/
inductive GoArg where
  | int (n : Int)
  | str (s : String)
deriving Repr, DecidableEq

/-- The flag characters of a Go format directive (`fmt` package). -/
def isFmtFlag (c : Char) : Bool :=
  c == '+' || c == '-' || c == '#' || c == ' ' || c == '0'

/-- Decimal rendering of an integer, as Go's `%d` produces it. -/
def intDecimal (n : Int) : List Char :=
  (toString n).data

theorem length_dropWhile_le (p : Char → Bool) (l : List Char) :
    (l.dropWhile p).length ≤ l.length := by
  induction l with
  | nil => simp [List.dropWhile]
  | cons c t ih => simp only [List.dropWhile_cons]; split <;> simp <;> omega

/-- The width part of a Go format directive: a run of digits, or `*` taking
the width from the next argument (padding itself is not modelled, as the
package never combines widths with arguments).  Returns
(output, remaining args, rest of format). -/
def fmtWidth (args : List GoArg) (r1 : List Char) :
    List Char × List GoArg × List Char :=
  match r1 with
  | [] => ([], args, [])
  | c :: t =>
    if c = '*' then
      match args with
      | [] => ("%!(BADWIDTH)".data, [], t)
      | _ :: as => ([], as, t)
    else ([], args, (c :: t).dropWhile Char.isDigit)

/-- The precision part of a Go format directive: `.` followed by digits or
by `*` taking the precision from the next argument. -/
def fmtPrec (args : List GoArg) (r2 : List Char) :
    List Char × List GoArg × List Char :=
  match r2 with
  | [] => ([], args, [])
  | c :: t =>
    if c = '.' then
      match t with
      | [] => ([], args, [])
      | c2 :: t2 =>
        if c2 = '*' then
          match args with
          | [] => ("%!(BADPREC)".data, [], t2)
          | _ :: as => ([], as, t2)
        else ([], args, (c2 :: t2).dropWhile Char.isDigit)
    else ([], args, c :: t)

/-- The verb of a Go format directive.  With no argument left any verb
produces a `%!v(MISSING)` marker, `%%` is a literal percent, and a format
ending right after the `%` yields `%!(NOVERB)`.  Verbs other than `d`/`s`
with a matching argument are not modelled (the package never uses them). -/
def fmtVerb (args : List GoArg) (r3 : List Char) :
    List Char × List GoArg × List Char :=
  match r3 with
  | [] => ("%!(NOVERB)".data, args, [])
  | v :: t =>
    if v = '%' then (['%'], args, t)
    else
      match args with
      | [] => ('%' :: '!' :: v :: "(MISSING)".data, [], t)
      | a :: as =>
        if v = 'd' then
          (match a with
           | GoArg.int n => intDecimal n
           | GoArg.str s => ("%!d(string=" ++ s ++ ")").data, as, t)
        else if v = 's' then
          (match a with
           | GoArg.str s => s.data
           | GoArg.int n => ("%!s(int=" ++ toString n ++ ")").data, as, t)
        else ('%' :: '!' :: v :: "(UNMODELLED)".data, as, t)

/-- Process one format directive (the text after a `%`), Go `fmt` style:
consume flags, width, and precision, then dispatch on the verb character.
Argument indexes `%[n]` are not modelled (the package never uses them). -/
def fmtDirective (args : List GoArg) (rest : List Char) :
    List Char × List GoArg × List Char :=
  let w := fmtWidth args (rest.dropWhile isFmtFlag)
  let p := fmtPrec w.2.1 w.2.2
  let v := fmtVerb p.2.1 p.2.2
  (w.1 ++ p.1 ++ v.1, v.2.1, v.2.2)

theorem fmtWidth_rest_length (args : List GoArg) (r1 : List Char) :
    (fmtWidth args r1).2.2.length ≤ r1.length := by
  unfold fmtWidth
  rcases r1 with _ | ⟨c, t⟩
  · simp
  · by_cases h : c = '*'
    · rcases args with _ | ⟨a, as⟩ <;> simp [h]
    · have := length_dropWhile_le Char.isDigit (c :: t)
      simp only [h, if_false]
      omega

theorem fmtPrec_rest_length (args : List GoArg) (r2 : List Char) :
    (fmtPrec args r2).2.2.length ≤ r2.length := by
  unfold fmtPrec
  rcases r2 with _ | ⟨c, t⟩
  · simp
  · by_cases h : c = '.'
    · rcases t with _ | ⟨c2, t2⟩
      · simp [h]
      · by_cases h2 : c2 = '*'
        · rcases args with _ | ⟨a, as⟩ <;> simp [h, h2] <;> omega
        · have := length_dropWhile_le Char.isDigit (c2 :: t2)
          simp only [h, h2, if_true, if_false]
          simp only [List.length_cons] at this ⊢
          omega
    · simp [h]

theorem fmtVerb_rest_length (args : List GoArg) (r3 : List Char) :
    (fmtVerb args r3).2.2.length ≤ r3.length := by
  unfold fmtVerb
  rcases r3 with _ | ⟨v, t⟩
  · simp
  · by_cases h : v = '%'
    · simp [h]
    · rcases args with _ | ⟨a, as⟩
      · simp [h]
      · by_cases hd : v = 'd' <;> by_cases hs : v = 's' <;>
          simp [h, hd, hs]

theorem fmtDirective_rest_length (args : List GoArg) (rest : List Char) :
    (fmtDirective args rest).2.2.length ≤ rest.length := by
  have h0 := length_dropWhile_le isFmtFlag rest
  have h1 := fmtWidth_rest_length args (rest.dropWhile isFmtFlag)
  have h2 := fmtPrec_rest_length
    (fmtWidth args (rest.dropWhile isFmtFlag)).2.1
    (fmtWidth args (rest.dropWhile isFmtFlag)).2.2
  have h3 := fmtVerb_rest_length
    (fmtPrec (fmtWidth args (rest.dropWhile isFmtFlag)).2.1
      (fmtWidth args (rest.dropWhile isFmtFlag)).2.2).2.1
    (fmtPrec (fmtWidth args (rest.dropWhile isFmtFlag)).2.1
      (fmtWidth args (rest.dropWhile isFmtFlag)).2.2).2.2
  simp only [fmtDirective]
  omega

/-- Go `fmt`-style formatting of a format string against an argument list:
literal characters are copied, each `%` starts a directive handled by
`fmtDirective`, and arguments left over when the format is exhausted produce
a trailing `%!(EXTRA ...)` marker as in Go. -/
def goFmt (args : List GoArg) : List Char → List Char
  | [] =>
    match args with
    | [] => []
    | _ => "%!(EXTRA)".data
  | c :: t =>
    if c = '%' then
      match h : fmtDirective args t with
      | (out, args2, rest2) => out ++ goFmt args2 rest2
    else c :: goFmt args t
termination_by l => l.length
decreasing_by
  · have h3 := fmtDirective_rest_length args t
    rw [h] at h3
    simp at h3 ⊢
    omega
  · simp

/-- `fmt.Sprintf` as used by this package. -/
def goSprintf (format : String) (args : List GoArg) : String :=
  ⟨goFmt args format.data⟩

/-- Go `unicode.IsSpace`: the Unicode White_Space code points. -/
def goIsSpace (c : Char) : Bool :=
  (0x9 ≤ c.toNat && c.toNat ≤ 0xD) || c.toNat == 0x20 || c.toNat == 0x85 ||
  c.toNat == 0xA0 || c.toNat == 0x1680 ||
  (0x2000 ≤ c.toNat && c.toNat ≤ 0x200A) || c.toNat == 0x2028 ||
  c.toNat == 0x2029 || c.toNat == 0x202F || c.toNat == 0x205F ||
  c.toNat == 0x3000

/-- Go `strings.TrimSpace`: drop Unicode white space from both ends. -/
def goTrimSpace (s : String) : String :=
  ⟨((s.data.dropWhile goIsSpace).reverse.dropWhile goIsSpace).reverse⟩

/-- Go `strings.ToLower`, restricted to ASCII case mapping (the package
only compares against ASCII candidate strings, where the restriction is
observationally equivalent). -/
def goToLower (s : String) : String :=
  ⟨s.data.map Char.toLower⟩

/-- Go `strings.EqualFold`, restricted to ASCII simple folding (see
`goToLower`). -/
def goEqualFold (a b : String) : Bool :=
  goToLower a == goToLower b

/-- The `Validator` aggregate: `Errors map[string][]string`, modelled as an
association list from field key to the ordered list of messages.  Go maps
have unique keys; theorems that need this assume `keysNodup`. -/
structure Validator where
  Errors : List (String × List String)
deriving Repr, DecidableEq

/-- Unique-keys well-formedness of the underlying map (automatic for every
Go map value). -/
def keysNodup (m : List (String × List String)) : Prop :=
  (m.map Prod.fst).Nodup

instance (m : List (String × List String)) : Decidable (keysNodup m) := by
  unfold keysNodup; infer_instance

/-- `New()`: an aggregate with an empty, initialized mapping. -/
def New : Validator := ⟨[]⟩

/-- Go map indexing `m[k]`: the message list for `k`, nil (empty) when the
key is absent. -/
def lookupKey : List (String × List String) → String → List String
  | [], _ => []
  | p :: t, k => if p.1 == k then p.2 else lookupKey t k

/-- Whether the map has an entry for key `k`. -/
def hasKey (m : List (String × List String)) (k : String) : Bool :=
  m.any (fun p => p.1 == k)

/-- `m[k] = append(m[k], msgs...)`: extend the (unique) entry for `k` in
place, or add a new entry; Go creates the key even when `msgs` is empty. -/
def setAppend : List (String × List String) → String → List String →
    List (String × List String)
  | [], k, msgs => [(k, msgs)]
  | p :: t, k, msgs =>
    if p.1 == k then (p.1, p.2 ++ msgs) :: t else p :: setAppend t k msgs

/-- `Append(key, value, format...)`: append `fmt.Sprintf(value, format...)`
to the error list for `key`. -/
def Validator.Append (v : Validator) (key value : String)
    (format : List GoArg) : Validator :=
  ⟨setAppend v.Errors key [goSprintf value format]⟩

/-- `HasErrors()`: `len(v.Errors) > 0`. -/
def Validator.HasErrors (v : Validator) : Bool :=
  v.Errors.length != 0

/-- `ErrorOrNil()`: the aggregate itself when it has errors, nil otherwise. -/
def Validator.ErrorOrNil (v : Validator) : Option Validator :=
  if v.HasErrors then some v else none

/-- A loop `for k, val := range o { m[f k] = append(m[f k], val...) }`,
the shape shared by `Merge` (`f` the identity) and `Sub` (`f` the key
prefixing). -/
def mergeUnder (f : String → String) (m o : List (String × List String)) :
    List (String × List String) :=
  o.foldl (fun acc p => setAppend acc (f p.1) p.2) m

/-- `Merge(other)`: `for k, val := range other.Errors
{ v.Errors[k] = append(v.Errors[k], val...) }`. -/
def Validator.Merge (v other : Validator) : Validator :=
  ⟨mergeUnder (fun k => k) v.Errors other.Errors⟩

/-- A non-nil Go `error` value passed to `Sub`: either a `Validator`
(`*Validator` behaves identically) or any other error, abstracted by its
`Error()` text. -/
inductive GoError where
  | validator (sub : Validator)
  | plain (msg : String)
deriving Repr

/-- `Sub(key, subKey, err)`: merge a sub-validation under a prefixed key;
`none` models a nil error. -/
def Validator.Sub (v : Validator) (key subKey : String)
    (err : Option GoError) : Validator :=
  match err with
  | none => v
  | some e =>
    let key := if subKey != "" then goSprintf "%s[%s]" [.str key, .str subKey]
               else key
    match e with
    | .plain msg => v.Append key msg []
    | .validator sub =>
      if !sub.HasErrors then v
      else ⟨mergeUnder (fun k => goSprintf "%s.%s" [.str key, .str k])
              v.Errors sub.Errors⟩

/-- Message templates from `messages.go`.  The file under `src/` is an
earlier snapshot missing `MessageURL`, `MessagePhone`, `MessageRangeHigher`
and `MessageRangeLower`, which `validate.go` references; those four are
taken from the sibling snapshot of `messages.go` in this repository, whose
wording matches the expectations in `validate_test.go`. -/
def MessageRequired : String := "must be set"

def MessageDomain : String := "must be a valid domain"

def MessageURL : String := "must be a valid url"

def MessageEmail : String := "must be a valid email address"

def MessageIPv4 : String := "must be a valid IPv4 address"

def MessageHexColor : String := "must be a valid color code"

def MessageLenLonger : String := "must be longer than %d characters"

def MessageLenShorter : String := "must be shorter than %d characters"

def MessageExclude : String := "cannot be ‘%s’"

def MessageInclude : String := "must be one of ‘%s’"

def MessageInteger : String := "must be a whole number"

def MessageBool : String := "must be a boolean"

def MessageDate : String := "must be a date as ‘%s’"

def MessagePhone : String := "must be a valid phone number"

def MessageRangeHigher : String := "must be %d or higher"

def MessageRangeLower : String := "must be %d or lower"

/-- `getMessage`: zero override messages select the default, one selects
the override, more than one panics (`none`). -/
def getMessage (message : List String) (dflt : String) : Option String :=
  match message with
  | [] => some dflt
  | [m] => some m
  | _ => none

/-- A Go `interface{}` value as dispatched by `Required`'s type switch and
reflection fallback.  `ptr` is a pointer of any type outside the explicit
switch, abstracted by its nil-ness; `slice` is a slice of any element type
outside the switch; `other` is a value of any non-pointer, non-slice type
outside the switch, abstracted by its `reflect.Value.IsZero` answer (only
consulted when it occurs as a slice element; at top level it panics). -/
inductive GoValue where
  | str (s : String)
  | ptrStr (p : Option String)
  | goInt (n : Int)
  | goInt64 (n : Int)
  | goUint (n : Nat)
  | goUint64 (n : Nat)
  | goBool (b : Bool)
  | address (name addr : String)
  | addressList (l : List (String × String))
  | sliceInt64 (l : List Int)
  | ptr (isNil : Bool)
  | slice (elems : List GoValue)
  | other (isZero : Bool)
deriving Repr

/-- `reflect.Value.IsZero` for the modelled value shapes (a nil pointer and
a nil slice are zero; a struct is zero when all fields are; a nil-vs-empty
slice distinction is collapsed to emptiness). -/
def reflectIsZero : GoValue → Bool
  | .str s => s == ""
  | .ptrStr p => p.isNone
  | .goInt n => n == 0
  | .goInt64 n => n == 0
  | .goUint n => n == 0
  | .goUint64 n => n == 0
  | .goBool b => !b
  | .address name addr => name == "" && addr == ""
  | .addressList l => l.isEmpty
  | .sliceInt64 l => l.isEmpty
  | .ptr isNil => isNil
  | .slice elems => elems.isEmpty
  | .other isZero => isZero

/-- `Required(key, value, message...)`: the value must not be its type's
zero value.  The reflection fallback handles pointers (nil check), and
slices (empty, or every element zero — the source's dead conjunct
`vv.Kind() == reflect.Ptr && vv.Index(i).IsNil()` is omitted since `vv` is
the slice itself, whose kind is never `Ptr`); any other fallback type
panics (`none`). -/
def Validator.Required (v : Validator) (key : String) (value : GoValue)
    (message : List String) : Option Validator :=
  match getMessage message MessageRequired with
  | none => none
  | some msg =>
    match value with
    | .str s => some (if goTrimSpace s == "" then v.Append key msg [] else v)
    | .ptrStr p =>
      some (match p with
            | none => v.Append key msg []
            | some s => if goTrimSpace s == "" then v.Append key msg [] else v)
    | .goInt n => some (if n == 0 then v.Append key msg [] else v)
    | .goInt64 n => some (if n == 0 then v.Append key msg [] else v)
    | .goUint n => some (if n == 0 then v.Append key msg [] else v)
    | .goUint64 n => some (if n == 0 then v.Append key msg [] else v)
    | .goBool b => some (if !b then v.Append key msg [] else v)
    | .address _ addr => some (if addr == "" then v.Append key msg [] else v)
    | .addressList l => some (if l.isEmpty then v.Append key msg [] else v)
    | .sliceInt64 l => some (if l.isEmpty then v.Append key msg [] else v)
    | .ptr isNil => some (if isNil then v.Append key msg [] else v)
    | .slice elems =>
      some (if elems.isEmpty then v.Append key msg []
            else if elems.all reflectIsZero then v.Append key msg [] else v)
    | .other _ => none

/-- `ExcludeInt64(key, value, exclude, message...)`: the value must not be
in the exclude list; the loop appends for the first match and returns. -/
def Validator.ExcludeInt64 (v : Validator) (key : String) (value : Int)
    (exclude : List Int) (message : List String) : Option Validator :=
  match getMessage message "" with
  | none => none
  | some msg =>
    match exclude.find? (fun e => e == value) with
    | some e =>
      some (if msg != "" then v.Append key msg []
            else v.Append key (goSprintf MessageExclude [.str (toString e)]) [])
    | none => some v

/-- `IncludeInt64(key, value, include, message...)`: the value must be in
the include list; an empty list, or a match, returns before the override
messages are inspected. -/
def Validator.IncludeInt64 (v : Validator) (key : String) (value : Int)
    (include1 : List Int) (message : List String) : Option Validator :=
  if include1.isEmpty then some v
  else if include1.any (fun e => e == value) then some v
  else
    match getMessage message "" with
    | none => none
    | some msg =>
      some (if msg != "" then v.Append key msg []
            else v.Append key
              (goSprintf MessageInclude
                [.str (String.intercalate ", " (include1.map toString))]) [])

/-- `Exclude(key, value, exclude, message...)`: case-insensitive exclusion
of a trimmed string from a list. -/
def Validator.Exclude (v : Validator) (key value : String)
    (exclude : List String) (message : List String) : Option Validator :=
  match getMessage message "" with
  | none => none
  | some msg =>
    let value := goTrimSpace (goToLower value)
    match exclude.find? (fun e => goToLower e == value) with
    | some e =>
      some (if msg != "" then v.Append key msg []
            else v.Append key (goSprintf MessageExclude [.str e]) [])
    | none => some v

/-- `Include(key, value, include, message...)`: case-insensitive membership
of a trimmed string in a list; an empty list, or a match, returns before
the override messages are inspected. -/
def Validator.Include (v : Validator) (key value : String)
    (include1 : List String) (message : List String) : Option Validator :=
  if include1.isEmpty then some v
  else
    let value := goTrimSpace (goToLower value)
    if include1.any (fun e => goEqualFold e value) then some v
    else
      match getMessage message "" with
      | none => none
      | some msg =>
        some (if msg != "" then v.Append key msg []
              else v.Append key
                (goSprintf MessageInclude
                  [.str (String.intercalate ", " include1)]) [])

/-- A character of a domain label, from the regex class `[\p{L}\d-]`; the
Unicode letter class `\p{L}` is an explicit parameter `isLetter`. -/
def labelChar (isLetter : Char → Bool) (c : Char) : Bool :=
  isLetter c || c.isDigit || c == '-'

/-- `validDomain`, from the anchored regex
`^[\p{L}\d-]{1,63}(\.[\p{L}\d-]{1,63})+$`: at least two dot-separated
labels of 1 to 63 label characters each. -/
def validDomain (isLetter : Char → Bool) (s : String) : Bool :=
  let labels := s.split (fun c => c == '.')
  decide (2 ≤ labels.length) &&
    labels.all (fun l =>
      decide (1 ≤ l.length) && decide (l.length ≤ 63) &&
        l.data.all (labelChar isLetter))

/-- `Domain(key, value, message...)`: empty input is skipped; otherwise the
value must satisfy `validDomain`. -/
def Validator.Domain (isLetter : Char → Bool) (v : Validator)
    (key value : String) (message : List String) : Option Validator :=
  if value == "" then some v
  else
    match getMessage message MessageDomain with
    | none => none
    | some msg =>
      some (if !validDomain isLetter value then v.Append key msg [] else v)

/-- The parts of a parsed `*url.URL` this package inspects. -/
structure GoURL where
  Scheme : String
  Host : String
deriving Repr, DecidableEq

/-- The `net/url` and `net` collaborators of the `URL` check: `parse` is
`url.Parse` (result and error text — for `net/url` exactly one of the two
is present), `render` is `(*url.URL).String`, and `splitHostPort` is
`net.SplitHostPort` returning the host part on success. -/
structure URLIntf where
  parse : String → Option GoURL × Option String
  render : GoURL → String
  splitHostPort : String → Option String

/-- `URL(key, value, message...)`: parse the value as a URL, prepend the
`http` scheme and reparse when none is given, and require a non-empty host
(port stripped) that satisfies `validDomain`.  Returns the parsed URL on
success, nil otherwise.  The `none` results model the nil-pointer
dereference a `(nil, nil)` parse result would cause, which `net/url` never
produces. -/
def Validator.URL (intf : URLIntf) (isLetter : Char → Bool) (v : Validator)
    (key value : String) (message : List String) :
    Option (Validator × Option GoURL) :=
  if value == "" then some (v, none)
  else
    match getMessage message MessageURL with
    | none => none
    | some msg =>
      match intf.parse value with
      | (none, some e) =>
        some (v.Append key "%s: %s" [.str msg, .str e], none)
      | (none, none) => none
      | (some u0, err0) =>
        match (if u0.Scheme == "" then intf.parse (intf.render { u0 with Scheme := "http" })
               else (some u0, err0)) with
        | (u1, err1) =>
          match err1 with
          | some e => some (v.Append key "%s: %s" [.str msg, .str e], none)
          | none =>
            match u1 with
            | none => none
            | some u =>
              if u.Host == "" then some (v.Append key msg [], none)
              else
                let host := match intf.splitHostPort u.Host with
                            | some h => h
                            | none => u.Host
                if !validDomain isLetter host then
                  some (v.Append key msg [], none)
                else some (v, some u)

/-- A `mailaddress.Address`. -/
structure MailAddress where
  Name : String
  Address : String
deriving Repr, DecidableEq

/-- `Email(key, value, message...)`: empty input returns the zero address
with no parse; otherwise delegate to `mailaddress.Parse` (an explicit
parameter returning the address and whether parsing failed) and append on
failure, returning the parsed address either way. -/
def Validator.Email (parse : String → MailAddress × Bool) (v : Validator)
    (key value : String) (message : List String) :
    Option (Validator × MailAddress) :=
  if value == "" then some (v, ⟨"", ""⟩)
  else
    match getMessage message MessageEmail with
    | none => none
    | some msg =>
      match parse value with
      | (addr, hasErr) =>
        some (if hasErr then (v.Append key msg [], addr) else (v, addr))

/-- `IPv4(key, value, message...)`: empty input returns the empty `net.IP`
with no parse; otherwise the value must parse as an IP (`parseIP`, i.e.
`net.ParseIP`, bytes of the result) that is expressible in 4-byte form
(`to4`, i.e. `IP.To4`); the parse result is returned either way. -/
def Validator.IPv4 (parseIP : String → Option (List Nat))
    (to4 : List Nat → Option (List Nat)) (v : Validator)
    (key value : String) (message : List String) :
    Option (Validator × Option (List Nat)) :=
  if value == "" then some (v, some [])
  else
    match getMessage message MessageIPv4 with
    | none => none
    | some msg =>
      match parseIP value with
      | none => some (v.Append key msg [], none)
      | some ip =>
        if (to4 ip).isNone then some (v.Append key msg [], some ip)
        else some (v, some ip)

/-- A hexadecimal digit, matched case-insensitively (the regex `(?i)`
flag). -/
def isHexDigitCI (c : Char) : Bool :=
  ('0' ≤ c && c ≤ '9') || ('a' ≤ c && c ≤ 'f') || ('A' ≤ c && c ≤ 'F')

/-- The anchored regex `(?i)^#[0-9a-f]{3,6}$` of `HexColor`: a `#` followed
by 3 to 6 hex digits. -/
def reValidHexColorMatch (s : String) : Bool :=
  match s.data with
  | [] => false
  | c :: rest =>
    if c = '#' then
      decide (3 ≤ rest.length) && decide (rest.length ≤ 6) &&
        rest.all isHexDigitCI
    else false

/-- `HexColor(key, value, message...)`: empty input is skipped; otherwise
the value must match `reValidHexColorMatch`. -/
def Validator.HexColor (v : Validator) (key value : String)
    (message : List String) : Option Validator :=
  if value == "" then some v
  else
    match getMessage message MessageHexColor with
    | none => none
    | some msg =>
      some (if !reValidHexColorMatch value then v.Append key msg [] else v)

/-- `Len(key, value, min, max, message...)`: the length in characters
(`utf8.RuneCountInString`, i.e. `String.length`) must be at least `min`
and, when `max > 0`, at most `max`. -/
def Validator.Len (v : Validator) (key value : String) (min max : Int)
    (message : List String) : Option Validator :=
  match getMessage message "" with
  | none => none
  | some msg =>
    let length : Int := value.length
    if length < min then
      some (if msg != "" then v.Append key msg []
            else v.Append key (goSprintf MessageLenLonger [.int min]) [])
    else if max > 0 ∧ length > max then
      some (if msg != "" then v.Append key msg []
            else v.Append key (goSprintf MessageLenShorter [.int max]) [])
    else some v

/-- `strconv.ParseInt(s, 10, 64)`: (value, ok).  An optional sign followed
by at least one decimal digit; a syntax error yields `(0, false)`, a value
outside the signed 64-bit range yields the clamped bound and `false`
(Go returns `math.MaxInt64`/`math.MinInt64` with `ErrRange`). -/
def goParseInt64 (s : String) : Int × Bool :=
  match s.data with
  | [] => (0, false)
  | c :: rest =>
    let signAndDigits : Bool × List Char :=
      if c == '+' then (false, rest)
      else if c == '-' then (true, rest)
      else (false, c :: rest)
    match signAndDigits with
    | (neg, digits) =>
      if digits.isEmpty || !digits.all Char.isDigit then (0, false)
      else
        let un : Nat :=
          digits.foldl (fun acc d => acc * 10 + (d.toNat - '0'.toNat)) 0
        if !neg && decide (2 ^ 63 ≤ un) then (2 ^ 63 - 1, false)
        else if neg && decide (2 ^ 63 < un) then (-(2 ^ 63 : Int), false)
        else ((if neg then -(un : Int) else (un : Int)), true)

/-- `Integer(key, value, message...)`: empty input returns 0 with no parse;
otherwise parse the trimmed value as a base-10 signed 64-bit integer,
appending on failure and returning the parse result either way. -/
def Validator.Integer (v : Validator) (key value : String)
    (message : List String) : Option (Validator × Int) :=
  if value == "" then some (v, 0)
  else
    match goParseInt64 (goTrimSpace value) with
    | (i, ok) =>
      if ok then some (v, i)
      else
        match getMessage message MessageInteger with
        | none => none
        | some msg => some (v.Append key msg [], i)

/-- `Boolean(key, value, message...)`: empty input returns false with no
error; otherwise the lower-cased value must be in the fixed truthy or falsy
set. -/
def Validator.Boolean (v : Validator) (key value : String)
    (message : List String) : Option (Validator × Bool) :=
  if value == "" then some (v, false)
  else
    let lv := goToLower value
    if lv == "1" || lv == "y" || lv == "yes" || lv == "t" || lv == "true" then
      some (v, true)
    else if lv == "0" || lv == "n" || lv == "no" || lv == "f" || lv == "false" then
      some (v, false)
    else
      match getMessage message MessageBool with
      | none => none
      | some msg => some (v.Append key msg [], false)

/-- `Date(key, value, layout, message...)`: `time.Parse(layout, value)`
(an explicit parameter reporting success) decides validity; note there is
no empty-input skip. -/
def Validator.Date (timeParse : String → String → Bool) (v : Validator)
    (key value layout : String) (message : List String) : Option Validator :=
  match getMessage message "" with
  | none => none
  | some msg =>
    if timeParse layout value then some v
    else
      some (if msg != "" then v.Append key msg []
            else v.Append key (goSprintf MessageDate [.str layout]) [])

/-- A character of the phone regex class `[0123456789+\-() .]`. -/
def phoneChar (c : Char) : Bool :=
  "0123456789+-() .".data.contains c

/-- The anchored regex `^[0123456789+\-() .]{5,20}$` of `Phone`. -/
def rePhoneMatch (s : String) : Bool :=
  decide (5 ≤ s.length) && decide (s.length ≤ 20) && s.data.all phoneChar

/-- `Phone(key, value, message...)`: empty input is skipped; otherwise the
value must match `rePhoneMatch`. -/
def Validator.Phone (v : Validator) (key value : String)
    (message : List String) : Option Validator :=
  if value == "" then some v
  else
    match getMessage message MessagePhone with
    | none => none
    | some msg =>
      some (if !rePhoneMatch value then v.Append key msg [] else v)

/-- `Range(key, value, min, max, message...)`: the value must be at least
`min` and, when `max > 0`, at most `max`; the two conditions are tested by
two independent `if` statements. -/
def Validator.Range (v : Validator) (key : String) (value min max : Int)
    (message : List String) : Option Validator :=
  match getMessage message "" with
  | none => none
  | some msg =>
    let v1 :=
      if value < min then
        (if msg != "" then v.Append key msg []
         else v.Append key (goSprintf MessageRangeHigher [.int min]) [])
      else v
    some (if max > 0 ∧ value > max then
            (if msg != "" then v1.Append key msg []
             else v1.Append key (goSprintf MessageRangeLower [.int max]) [])
          else v1)

/-- One call to a check function of the package, with all of its arguments
(external parsers included as function arguments where a check consults
one).  This enumeration ranges over every check function defined in
`validate.go`. -/
inductive Check where
  | required (key : String) (value : GoValue) (message : List String)
  | excludeInt64 (key : String) (value : Int) (exclude : List Int)
      (message : List String)
  | includeInt64 (key : String) (value : Int) (include1 : List Int)
      (message : List String)
  | exclude (key value : String) (list : List String) (message : List String)
  | include1 (key value : String) (list : List String) (message : List String)
  | domain (isLetter : Char → Bool) (key value : String)
      (message : List String)
  | url (intf : URLIntf) (isLetter : Char → Bool) (key value : String)
      (message : List String)
  | email (parse : String → MailAddress × Bool) (key value : String)
      (message : List String)
  | ipv4 (parseIP : String → Option (List Nat))
      (to4 : List Nat → Option (List Nat)) (key value : String)
      (message : List String)
  | hexColor (key value : String) (message : List String)
  | len (key value : String) (min max : Int) (message : List String)
  | integer (key value : String) (message : List String)
  | boolean (key value : String) (message : List String)
  | date (timeParse : String → String → Bool) (key value layout : String)
      (message : List String)
  | phone (key value : String) (message : List String)
  | range (key : String) (value min max : Int) (message : List String)

/-- Apply one check call to an aggregate, discarding any returned parsed
value; `none` models a panic. -/
def runCheck : Check → Validator → Option Validator
  | .required key value msg, v => v.Required key value msg
  | .excludeInt64 key value ex msg, v => v.ExcludeInt64 key value ex msg
  | .includeInt64 key value inc msg, v => v.IncludeInt64 key value inc msg
  | .exclude key value l msg, v => v.Exclude key value l msg
  | .include1 key value l msg, v => v.Include key value l msg
  | .domain isL key value msg, v => v.Domain isL key value msg
  | .url intf isL key value msg, v =>
    (v.URL intf isL key value msg).map Prod.fst
  | .email parse key value msg, v =>
    (v.Email parse key value msg).map Prod.fst
  | .ipv4 parseIP to4 key value msg, v =>
    (v.IPv4 parseIP to4 key value msg).map Prod.fst
  | .hexColor key value msg, v => v.HexColor key value msg
  | .len key value min1 max1 msg, v => v.Len key value min1 max1 msg
  | .integer key value msg, v => (v.Integer key value msg).map Prod.fst
  | .boolean key value msg, v => (v.Boolean key value msg).map Prod.fst
  | .date tp key value layout msg, v => v.Date tp key value layout msg
  | .phone key value msg, v => v.Phone key value msg
  | .range key value min1 max1 msg, v => v.Range key value min1 max1 msg

/-- The field key a check call reports under. -/
def Check.key : Check → String
  | .required key _ _ => key
  | .excludeInt64 key _ _ _ => key
  | .includeInt64 key _ _ _ => key
  | .exclude key _ _ _ => key
  | .include1 key _ _ _ => key
  | .domain _ key _ _ => key
  | .url _ _ key _ _ => key
  | .email _ key _ _ => key
  | .ipv4 _ _ key _ _ => key
  | .hexColor key _ _ => key
  | .len key _ _ _ _ => key
  | .integer key _ _ => key
  | .boolean key _ _ => key
  | .date _ key _ _ _ => key
  | .phone key _ _ => key
  | .range key _ _ _ _ => key

/-- Whether a check call is a `Range` call (the one check whose two bound
tests run in independent `if` statements). -/
def Check.isRange : Check → Bool
  | .range _ _ _ _ _ => true
  | _ => false

/-- The effective field prefix of a `Sub` call as the spec states it:
the base key alone when the sub-key is empty, else `base[subKey]`. -/
def subPrefix (key subKey : String) : String :=
  if subKey = "" then key else key ++ "[" ++ subKey ++ "]"

/-- The numeric value of a decimal digit character. -/
def digitVal (c : Char) : Nat :=
  c.toNat - '0'.toNat

/-! ### Helper lemmas about the error map -/

theorem string_ext {a b : String} (h : a.data = b.data) : a = b := by
  cases a; cases b; exact congrArg String.mk h

theorem lookupKey_setAppend_self (m : List (String × List String))
    (k : String) (msgs : List String) :
    lookupKey (setAppend m k msgs) k = lookupKey m k ++ msgs := by
  induction m with
  | nil => simp [setAppend, lookupKey]
  | cons p t ih =>
    by_cases h : p.1 = k
    · simp [setAppend, lookupKey, h]
    · simp [setAppend, lookupKey, h, ih]

theorem lookupKey_setAppend_ne (m : List (String × List String))
    (k q : String) (msgs : List String) (h : q ≠ k) :
    lookupKey (setAppend m k msgs) q = lookupKey m q := by
  have hkq : (k == q) = false := by simp [Ne.symm h]
  induction m with
  | nil => simp [setAppend, lookupKey, hkq]
  | cons p t ih =>
    by_cases hp : p.1 = k
    · simp [setAppend, lookupKey, hp, hkq]
    · by_cases hq : p.1 = q <;> simp [setAppend, lookupKey, hp, hq, h, ih]

theorem setAppend_setAppend (m : List (String × List String)) (k : String)
    (xs ys : List String) :
    setAppend (setAppend m k xs) k ys = setAppend m k (xs ++ ys) := by
  induction m with
  | nil => simp [setAppend]
  | cons p t ih =>
    by_cases h : p.1 = k <;> simp [setAppend, h, ih]

theorem Append_Errors (v : Validator) (key value : String)
    (format : List GoArg) :
    (v.Append key value format).Errors =
      setAppend v.Errors key [goSprintf value format] := rfl

theorem lookupKey_Append_self (v : Validator) (key value : String)
    (format : List GoArg) :
    lookupKey (v.Append key value format).Errors key =
      lookupKey v.Errors key ++ [goSprintf value format] :=
  lookupKey_setAppend_self v.Errors key [goSprintf value format]

theorem lookupKey_Append_ne (v : Validator) (key value q : String)
    (format : List GoArg) (h : q ≠ key) :
    lookupKey (v.Append key value format).Errors q = lookupKey v.Errors q :=
  lookupKey_setAppend_ne v.Errors key q [goSprintf value format] h

theorem Append_ne (v : Validator) (key value : String) (format : List GoArg) :
    v.Append key value format ≠ v := by
  intro h
  have h2 := congrArg (fun w => (lookupKey w.Errors key).length) h
  simp only [lookupKey_Append_self] at h2
  simp at h2

theorem hasKey_iff_mem (m : List (String × List String)) (k : String) :
    hasKey m k = true ↔ k ∈ m.map Prod.fst := by
  induction m with
  | nil => simp [hasKey]
  | cons p t ih =>
    simp only [hasKey, List.any_cons, Bool.or_eq_true, beq_iff_eq,
      List.map_cons, List.mem_cons] at ih ⊢
    rw [ih]
    constructor
    · rintro (h1 | h2)
      · exact Or.inl h1.symm
      · exact Or.inr h2
    · rintro (h1 | h2)
      · exact Or.inl h1.symm
      · exact Or.inr h2

theorem lookupKey_eq_nil_of_not_hasKey (m : List (String × List String))
    (k : String) (h : hasKey m k = false) : lookupKey m k = [] := by
  induction m with
  | nil => simp [lookupKey]
  | cons p t ih =>
    simp only [hasKey, List.any_cons, Bool.or_eq_false_iff] at h
    simp only [lookupKey, h.1, Bool.false_eq_true, if_false]
    exact ih h.2

theorem keys_setAppend (m : List (String × List String)) (k : String)
    (msgs : List String) :
    (setAppend m k msgs).map Prod.fst =
      if hasKey m k then m.map Prod.fst else m.map Prod.fst ++ [k] := by
  induction m with
  | nil => simp [setAppend, hasKey]
  | cons p t ih =>
    by_cases h : p.1 = k
    · have hh : hasKey (p :: t) k = true := by simp [hasKey, h]
      simp [setAppend, h, hh]
    · have hh : hasKey (p :: t) k = hasKey t k := by
        simp [hasKey, List.any_cons, h]
      rw [hh]
      by_cases ht : hasKey t k = true
      · simp [setAppend, h, ih, ht]
      · simp only [Bool.not_eq_true] at ht
        simp [setAppend, h, ih, ht]

theorem keysNodup_setAppend (m : List (String × List String)) (k : String)
    (msgs : List String) (h : keysNodup m) : keysNodup (setAppend m k msgs) := by
  unfold keysNodup at h ⊢
  rw [keys_setAppend]
  by_cases hk : hasKey m k = true
  · simpa [hk] using h
  · simp only [Bool.not_eq_true] at hk
    have hmem : k ∉ m.map Prod.fst := fun hmem =>
      by simp [(hasKey_iff_mem m k).2 hmem] at hk
    simp [hk, List.nodup_append, h, hmem]

theorem setAppend_of_not_hasKey (m : List (String × List String)) (k : String)
    (msgs : List String) (h : hasKey m k = false) :
    setAppend m k msgs = m ++ [(k, msgs)] := by
  induction m with
  | nil => simp [setAppend]
  | cons p t ih =>
    simp only [hasKey, List.any_cons, Bool.or_eq_false_iff] at h
    simp [setAppend, h.1, ih h.2]

theorem hasKey_cons (p : String × List String)
    (t : List (String × List String)) (q : String) :
    hasKey (p :: t) q = (p.1 == q || hasKey t q) := by
  simp [hasKey, List.any_cons]

theorem hasKey_setAppend (m : List (String × List String)) (k q : String)
    (msgs : List String) :
    hasKey (setAppend m k msgs) q = (hasKey m q || q == k) := by
  induction m with
  | nil =>
    by_cases h : k = q <;> simp [setAppend, hasKey, h, Ne.symm, eq_comm]
  | cons p t ih =>
    by_cases h : p.1 = k
    · have hstep : setAppend (p :: t) k msgs = (p.1, p.2 ++ msgs) :: t := by
        simp [setAppend, h]
      rw [hstep, hasKey_cons, hasKey_cons]
      by_cases hq : q = k
      · subst hq; simp [h]
      · simp [hq]
    · have hstep : setAppend (p :: t) k msgs = p :: setAppend t k msgs := by
        simp [setAppend, h]
      rw [hstep, hasKey_cons, hasKey_cons, ih]
      by_cases h1 : p.1 = q <;> simp [h1, Bool.or_assoc]

theorem lookupKey_mem (m : List (String × List String)) (k : String)
    (h : hasKey m k = true) : (k, lookupKey m k) ∈ m := by
  induction m with
  | nil => cases h
  | cons p t ih =>
    by_cases hp : p.1 = k
    · subst hp
      simp [lookupKey]
    · simp only [hasKey, List.any_cons, Bool.or_eq_true, beq_iff_eq] at h
      rcases h with h | h
      · exact absurd h hp
      · simp only [lookupKey, hp]
        simp only [beq_iff_eq, hp, if_false]
        exact List.mem_cons_of_mem _ (ih h)

theorem lookupKey_mergeUnder_miss (f : String → String)
    (m o : List (String × List String)) (q : String)
    (h : ∀ p ∈ o, f p.1 ≠ q) :
    lookupKey (mergeUnder f m o) q = lookupKey m q := by
  induction o generalizing m with
  | nil => rfl
  | cons p t ih =>
    show lookupKey (mergeUnder f (setAppend m (f p.1) p.2) t) q = _
    rw [ih _ (fun p2 hp2 => h p2 (List.mem_cons_of_mem _ hp2))]
    exact lookupKey_setAppend_ne _ _ _ _
      (fun hq => (h p (List.mem_cons_self _ _)) hq.symm)

theorem lookupKey_mergeUnder_hit (f : String → String)
    (m o : List (String × List String)) (k : String) (val : List String)
    (ho : (o.map (fun p => f p.1)).Nodup) (hmem : (k, val) ∈ o) :
    lookupKey (mergeUnder f m o) (f k) = lookupKey m (f k) ++ val := by
  induction o generalizing m with
  | nil => cases hmem
  | cons p t ih =>
    simp only [List.map_cons, List.nodup_cons] at ho
    rcases List.mem_cons.mp hmem with heq | hmem2
    · subst heq
      show lookupKey (mergeUnder f (setAppend m (f k) val) t) (f k) = _
      rw [lookupKey_mergeUnder_miss f _ t (f k)
          (fun p2 hp2 hfeq => ho.1 (hfeq ▸ List.mem_map_of_mem _ hp2))]
      exact lookupKey_setAppend_self _ _ _
    · show lookupKey (mergeUnder f (setAppend m (f p.1) p.2) t) (f k) = _
      rw [ih _ ho.2 hmem2]
      congr 1
      exact lookupKey_setAppend_ne _ _ _ _
        (fun hq => ho.1 (hq ▸ List.mem_map_of_mem (fun p2 => f p2.1) hmem2))

theorem hasKey_mergeUnder_id (m o : List (String × List String)) (q : String) :
    hasKey (mergeUnder (fun k => k) m o) q = (hasKey m q || hasKey o q) := by
  induction o generalizing m with
  | nil => simp [mergeUnder, hasKey]
  | cons p t ih =>
    show hasKey (mergeUnder (fun k => k) (setAppend m p.1 p.2) t) q =
      (hasKey m q || hasKey (p :: t) q)
    rw [ih, hasKey_setAppend, hasKey_cons]
    by_cases h2 : q = p.1
    · rw [h2]
      by_cases h1 : hasKey m p.1 = true <;> simp [h1]
    · have h2b : ¬ p.1 = q := fun h => h2 h.symm
      rw [beq_eq_false_iff_ne.mpr h2, beq_eq_false_iff_ne.mpr h2b,
        Bool.or_assoc]

theorem keysNodup_mergeUnder_id (m o : List (String × List String))
    (hm : keysNodup m) : keysNodup (mergeUnder (fun k => k) m o) := by
  induction o generalizing m with
  | nil => exact hm
  | cons p t ih => exact ih _ (keysNodup_setAppend _ _ _ hm)

theorem setAppend_eq_map_of_hasKey (m : List (String × List String))
    (k : String) (val : List String) (hm : keysNodup m)
    (hk : hasKey m k = true) :
    setAppend m k val =
      m.map (fun q => if q.1 == k then (q.1, q.2 ++ val) else q) := by
  induction m with
  | nil => cases hk
  | cons p t ih =>
    simp only [keysNodup, List.map_cons, List.nodup_cons] at hm
    by_cases h : p.1 = k
    · have hmap : t.map (fun q => if q.1 == k then (q.1, q.2 ++ val) else q)
          = t := by
        have hnot : ∀ q ∈ t,
            (if q.1 == k then (q.1, q.2 ++ val) else q) = q := by
          intro q hq
          have hqk : ¬ q.1 = k := by
            intro hqk
            exact hm.1 (by rw [h, ← hqk]; exact List.mem_map_of_mem _ hq)
          simp [hqk]
        rw [List.map_congr_left hnot]
        simp
      have hstep : setAppend (p :: t) k val = (p.1, p.2 ++ val) :: t := by
        simp [setAppend, h]
      rw [hstep, List.map_cons, hmap]
      congr 1
      simp [h]
    · have ht : hasKey t k = true := by
        rw [hasKey_cons] at hk
        simpa [h] using hk
      have hstep : setAppend (p :: t) k val = p :: setAppend t k val := by
        simp [setAppend, h]
      rw [hstep, ih hm.2 ht]
      simp [h]

theorem beq_comm_str (a b : String) : (a == b) = (b == a) := by
  by_cases h : a = b
  · simp [h]
  · rw [beq_eq_false_iff_ne.mpr h,
      beq_eq_false_iff_ne.mpr (fun hh => h hh.symm)]

theorem hasKey_append_single (m : List (String × List String))
    (k q : String) (val : List String) :
    hasKey (m ++ [(k, val)]) q = (hasKey m q || q == k) := by
  simp only [hasKey, List.any_append, List.any_cons, List.any_nil,
    Bool.or_false]
  rw [beq_comm_str k q]

theorem lookupKey_mergeUnder_id (m o : List (String × List String))
    (q : String) (ho : keysNodup o) :
    lookupKey (mergeUnder (fun k => k) m o) q =
      lookupKey m q ++ lookupKey o q := by
  by_cases hq : hasKey o q = true
  · have hmem := lookupKey_mem o q hq
    have hmap : (o.map (fun p => p.1)).Nodup := ho
    exact lookupKey_mergeUnder_hit (fun k => k) m o q (lookupKey o q) hmap hmem
  · simp only [Bool.not_eq_true] at hq
    rw [lookupKey_eq_nil_of_not_hasKey o q hq, List.append_nil]
    refine lookupKey_mergeUnder_miss _ _ _ _ ?_
    intro p hp hpq
    subst hpq
    exact absurd ((hasKey_iff_mem o p.1).2 (List.mem_map_of_mem _ hp))
      (by simp [hq])

theorem not_hasKey_of_not_mem_keys (m : List (String × List String))
    (k : String) (h : k ∉ m.map Prod.fst) : hasKey m k = false := by
  cases hcon : hasKey m k
  · rfl
  · exact absurd ((hasKey_iff_mem m k).1 hcon) h

/-- Structural characterization of `Merge`'s loop: every existing entry is
extended with the merged-in messages for its key (in order), and the keys
new to the receiver are appended behind, with their lists as in `o`. -/
theorem mergeUnder_id_char (o m : List (String × List String))
    (hm : keysNodup m) (ho : keysNodup o) :
    mergeUnder (fun k => k) m o =
      m.map (fun p => (p.1, p.2 ++ lookupKey o p.1)) ++
        o.filter (fun p => !hasKey m p.1) := by
  induction o generalizing m with
  | nil => simp [mergeUnder, lookupKey]
  | cons p t ih =>
    simp only [keysNodup, List.map_cons, List.nodup_cons] at ho
    have hpt : p.1 ∉ t.map Prod.fst := ho.1
    have ht : keysNodup t := ho.2
    have hlt : lookupKey t p.1 = [] :=
      lookupKey_eq_nil_of_not_hasKey t p.1 (not_hasKey_of_not_mem_keys t p.1 hpt)
    show mergeUnder (fun k => k) (setAppend m p.1 p.2) t = _
    rw [ih (setAppend m p.1 p.2) (keysNodup_setAppend _ _ _ hm) ht]
    by_cases hk : hasKey m p.1 = true
    · have hfilter : t.filter
          (fun r => !hasKey (setAppend m p.1 p.2) r.1) =
          t.filter (fun r => !hasKey m r.1) := by
        apply List.filter_congr
        intro r hr
        have hr1 : ¬ r.1 = p.1 := fun hrp =>
          hpt (hrp ▸ List.mem_map_of_mem Prod.fst hr)
        rw [hasKey_setAppend, beq_eq_false_iff_ne.mpr hr1, Bool.or_false]
      have hhead : (p :: t).filter (fun r => !hasKey m r.1) =
          t.filter (fun r => !hasKey m r.1) := by
        simp [List.filter_cons, hk]
      rw [hfilter, hhead, setAppend_eq_map_of_hasKey m p.1 p.2 hm hk,
        List.map_map]
      congr 1
      apply List.map_congr_left
      intro q hq
      simp only [Function.comp_apply]
      by_cases hq1 : q.1 = p.1
      · rw [if_pos (by simp [hq1])]
        simp only [lookupKey]
        rw [if_pos (by simp [hq1]), hq1, hlt]
        simp
      · have hp1q : ¬ p.1 = q.1 := fun hc => hq1 hc.symm
        rw [if_neg (by simp [hq1])]
        simp only [lookupKey]
        rw [if_neg (by simp [hp1q])]
    · have hkf : hasKey m p.1 = false := by simpa using hk
      rw [setAppend_of_not_hasKey m p.1 p.2 hkf]
      have hfilter : t.filter
          (fun r => !hasKey (m ++ [(p.1, p.2)]) r.1) =
          t.filter (fun r => !hasKey m r.1) := by
        apply List.filter_congr
        intro r hr
        have hr1 : ¬ r.1 = p.1 := fun hrp =>
          hpt (hrp ▸ List.mem_map_of_mem Prod.fst hr)
        rw [hasKey_append_single, beq_eq_false_iff_ne.mpr hr1, Bool.or_false]
      have hhead : (p :: t).filter (fun r => !hasKey m r.1) =
          p :: t.filter (fun r => !hasKey m r.1) := by
        simp [List.filter_cons, hkf]
      rw [hfilter, hhead, List.map_append]
      have hmap : m.map (fun q => (q.1, q.2 ++ lookupKey t q.1)) =
          m.map (fun q => (q.1, q.2 ++ lookupKey (p :: t) q.1)) := by
        apply List.map_congr_left
        intro q hq
        have hq1 : ¬ p.1 = q.1 := by
          intro hpq
          have : hasKey m p.1 = true :=
            (hasKey_iff_mem m p.1).2 (hpq ▸ List.mem_map_of_mem Prod.fst hq)
          simp [this] at hkf
        simp only [lookupKey]
        rw [if_neg (by simp [hq1])]
      have hsingle : ([(p.1, p.2)] : List (String × List String)).map
          (fun q => (q.1, q.2 ++ lookupKey t q.1)) = [p] := by
        simp [hlt]
      rw [hmap, hsingle, List.append_assoc]
      rfl

theorem mergeUnder_id_assoc (a b c : List (String × List String))
    (ha : keysNodup a) (hb : keysNodup b) (hc : keysNodup c) :
    mergeUnder (fun k => k) (mergeUnder (fun k => k) a b) c =
      mergeUnder (fun k => k) a (mergeUnder (fun k => k) b c) := by
  have hab : keysNodup (mergeUnder (fun k => k) a b) :=
    keysNodup_mergeUnder_id a b ha
  have hbc : keysNodup (mergeUnder (fun k => k) b c) :=
    keysNodup_mergeUnder_id b c hb
  have e1 : a.map (fun p =>
      (p.1, p.2 ++ lookupKey (mergeUnder (fun k => k) b c) p.1)) =
      a.map ((fun p => (p.1, p.2 ++ lookupKey c p.1)) ∘
        (fun p => (p.1, p.2 ++ lookupKey b p.1))) := by
    apply List.map_congr_left
    intro q hq
    simp only [Function.comp_apply]
    rw [lookupKey_mergeUnder_id b c q.1 hc, List.append_assoc]
  have e2 : (b.filter (fun p => !hasKey a p.1)).map
      (fun p => (p.1, p.2 ++ lookupKey c p.1)) =
      (b.map (fun p => (p.1, p.2 ++ lookupKey c p.1))).filter
        (fun p => !hasKey a p.1) := by
    rw [List.filter_map]
    rfl
  have e3 : c.filter (fun p => !hasKey (mergeUnder (fun k => k) a b) p.1) =
      (c.filter (fun p => !hasKey b p.1)).filter
        (fun p => !hasKey a p.1) := by
    rw [List.filter_filter]
    apply List.filter_congr
    intro r hr
    rw [hasKey_mergeUnder_id]
    cases hasKey a r.1 <;> cases hasKey b r.1 <;> rfl
  rw [mergeUnder_id_char c (mergeUnder (fun k => k) a b) hab hc, e3,
    mergeUnder_id_char (mergeUnder (fun k => k) b c) a ha hbc, e1,
    mergeUnder_id_char b a ha hb, mergeUnder_id_char c b hb hc,
    List.map_append, List.map_map, List.filter_append, e2,
    List.append_assoc]

/-! ### Evaluation lemmas for the formatter -/

theorem goSprintf_str_sq (a b : String) :
    goSprintf "%s[%s]" [.str a, .str b] = a ++ "[" ++ b ++ "]" := by
  apply string_ext
  simp [goSprintf, goFmt, fmtDirective, fmtWidth, fmtPrec, fmtVerb,
    List.dropWhile, isFmtFlag, String.data_append]

theorem goSprintf_str_dot (a b : String) :
    goSprintf "%s.%s" [.str a, .str b] = a ++ "." ++ b := by
  apply string_ext
  simp [goSprintf, goFmt, fmtDirective, fmtWidth, fmtPrec, fmtVerb,
    List.dropWhile, isFmtFlag, String.data_append]

theorem Sub_key_eq_subPrefix (key subKey : String) :
    (if (subKey != "") = true
      then goSprintf "%s[%s]" [.str key, .str subKey] else key) =
      subPrefix key subKey := by
  unfold subPrefix
  by_cases h : subKey = ""
  · simp [h]
  · simp [h, goSprintf_str_sq]

theorem append_dot_inj (P k1 k2 : String)
    (h : P ++ "." ++ k1 = P ++ "." ++ k2) : k1 = k2 := by
  apply string_ext
  have hd := congrArg String.data h
  simp only [String.data_append] at hd
  exact List.append_cancel_left hd

theorem goFmt_no_pct (l : List Char) (h : ¬ l.contains '%') :
    goFmt [] l = l := by
  induction l with
  | nil => simp [goFmt]
  | cons c t ih =>
    simp only [List.contains_cons, Bool.or_eq_true, not_or] at h
    have hc : ¬ c = '%' := by
      intro he
      exact h.1 (by simp [he])
    rw [goFmt, if_neg hc, ih (by simpa [List.contains] using h.2)]

theorem goSprintf_no_pct (s : String) (h : ¬ s.data.contains '%') :
    goSprintf s [] = s := by
  apply string_ext
  exact goFmt_no_pct s.data h

theorem goFmt_append_no_pct (args : List GoArg) (pre l : List Char)
    (h : ¬ pre.contains '%') :
    goFmt args (pre ++ l) = pre ++ goFmt args l := by
  induction pre with
  | nil => simp
  | cons c t ih =>
    simp only [List.contains_cons, Bool.or_eq_true, not_or] at h
    have hc : ¬ c = '%' := by
      intro he
      exact h.1 (by simp [he])
    rw [List.cons_append, goFmt, if_neg hc,
      ih (by simpa [List.contains] using h.2)]
    rfl

theorem alpha_not_special (c : Char) (h : c.isAlpha = true) :
    isFmtFlag c = false ∧ c.isDigit = false ∧ c ≠ '*' ∧ c ≠ '.' ∧
      c ≠ '%' ∧ c ≠ '!' := by
  simp only [Char.isAlpha, Char.isUpper, Char.isLower, Bool.or_eq_true,
    Bool.and_eq_true, decide_eq_true_eq] at h
  have hv : 65 ≤ c.toNat ∧ c.toNat ≤ 90 ∨ 97 ≤ c.toNat ∧ c.toNat ≤ 122 := by
    rcases h with h | h
    · exact Or.inl ⟨by exact_mod_cast h.1, by exact_mod_cast h.2⟩
    · exact Or.inr ⟨by exact_mod_cast h.1, by exact_mod_cast h.2⟩
  have hne : ∀ d : Char,
      ¬ (65 ≤ d.toNat ∧ d.toNat ≤ 90 ∨ 97 ≤ d.toNat ∧ d.toNat ≤ 122) →
      c ≠ d := by
    intro d hd he
    exact hd (he ▸ hv)
  refine ⟨?_, ?_, hne _ (by decide), hne _ (by decide), hne _ (by decide),
    hne _ (by decide)⟩
  · simp only [isFmtFlag, Bool.or_eq_false_iff]
    refine ⟨⟨⟨⟨?_, ?_⟩, ?_⟩, ?_⟩, ?_⟩ <;>
      exact beq_eq_false_iff_ne.mpr (hne _ (by decide))
  · cases hd : c.isDigit
    · rfl
    · simp only [Char.isDigit, Bool.and_eq_true, decide_eq_true_eq] at hd
      have h2 : 48 ≤ c.toNat ∧ c.toNat ≤ 57 :=
        ⟨by exact_mod_cast hd.1, by exact_mod_cast hd.2⟩
      omega

theorem fmtDirective_alpha_verb (c : Char) (post : List Char)
    (h : c.isAlpha = true) :
    fmtDirective [] (c :: post) =
      ('%' :: '!' :: c :: "(MISSING)".data, [], post) := by
  obtain ⟨hf, hd, hstar, hdot, hpct, _⟩ := alpha_not_special c h
  have h1 : List.dropWhile isFmtFlag (c :: post) = c :: post := by
    simp [List.dropWhile_cons, hf]
  have h2 : List.dropWhile Char.isDigit (c :: post) = c :: post := by
    simp [List.dropWhile_cons, hd]
  have hw : fmtWidth [] (c :: post) = ([], [], c :: post) := by
    simp only [fmtWidth]
    rw [if_neg hstar, h2]
  have hp : fmtPrec [] (c :: post) = ([], [], c :: post) := by
    simp only [fmtPrec]
    rw [if_neg hdot]
  have hv : fmtVerb [] (c :: post) =
      ('%' :: '!' :: c :: "(MISSING)".data, [], post) := by
    simp only [fmtVerb]
    rw [if_neg hpct]
  unfold fmtDirective
  simp only [h1, hw, hp, hv]
  rfl

/-- The `%!v(MISSING)` expansion of a zero-argument format whose first
`%` directive is a letter verb. -/
theorem goFmt_missing_verb (pre : List Char) (c : Char) (post : List Char)
    (hpre : ¬ pre.contains '%') (hc : c.isAlpha = true) :
    goFmt [] (pre ++ '%' :: c :: post) =
      pre ++ '%' :: '!' :: c :: "(MISSING)".data ++ goFmt [] post := by
  rw [goFmt_append_no_pct [] pre _ hpre]
  rw [goFmt, if_pos rfl]
  rw [fmtDirective_alpha_verb c post hc]
  simp [List.append_assoc]

/-- The `%!(NOVERB)` expansion of a zero-argument format ending in `%`. -/
theorem goFmt_noverb (pre : List Char) (hpre : ¬ pre.contains '%') :
    goFmt [] (pre ++ ['%']) = pre ++ "%!(NOVERB)".data := by
  rw [goFmt_append_no_pct [] pre _ hpre]
  rw [goFmt, if_pos rfl]
  have hdir : fmtDirective [] ([] : List Char) =
      ("%!(NOVERB)".data, [], []) := rfl
  rw [hdir]
  simp [goFmt]

theorem fmtDirective_int_verb (n : Int) (post : List Char) :
    fmtDirective [GoArg.int n] ('d' :: post) = (intDecimal n, [], post) := by
  have h1 : List.dropWhile isFmtFlag ('d' :: post) = 'd' :: post := by
    simp [List.dropWhile_cons, show isFmtFlag 'd' = false from rfl]
  have hw : fmtWidth [GoArg.int n] ('d' :: post) =
      ([], [GoArg.int n], 'd' :: post) := by
    simp only [fmtWidth]
    rw [if_neg (by decide)]
    simp [List.dropWhile_cons, show Char.isDigit 'd' = false from rfl]
  have hp : fmtPrec [GoArg.int n] ('d' :: post) =
      ([], [GoArg.int n], 'd' :: post) := by
    simp only [fmtPrec]
    rw [if_neg (by decide)]
  have hv : fmtVerb [GoArg.int n] ('d' :: post) =
      (intDecimal n, [], post) := by
    simp [fmtVerb]
  unfold fmtDirective
  simp only [h1, hw, hp, hv]
  rfl

theorem fmtDirective_str_verb (x : String) (post : List Char) :
    fmtDirective [GoArg.str x] ('s' :: post) = (x.data, [], post) := by
  have h1 : List.dropWhile isFmtFlag ('s' :: post) = 's' :: post := by
    simp [List.dropWhile_cons, show isFmtFlag 's' = false from rfl]
  have hw : fmtWidth [GoArg.str x] ('s' :: post) =
      ([], [GoArg.str x], 's' :: post) := by
    simp only [fmtWidth]
    rw [if_neg (by decide)]
    simp [List.dropWhile_cons, show Char.isDigit 's' = false from rfl]
  have hp : fmtPrec [GoArg.str x] ('s' :: post) =
      ([], [GoArg.str x], 's' :: post) := by
    simp only [fmtPrec]
    rw [if_neg (by decide)]
  have hv : fmtVerb [GoArg.str x] ('s' :: post) = (x.data, [], post) := by
    simp [fmtVerb]
  unfold fmtDirective
  simp only [h1, hw, hp, hv]
  rfl

/-- Formatting a single `%d` directive between `%`-free text. -/
theorem goSprintf_one_int (pre post : List Char) (n : Int)
    (hpre : ¬ pre.contains '%') (hpost : ¬ post.contains '%') :
    goSprintf ⟨pre ++ '%' :: 'd' :: post⟩ [GoArg.int n] =
      ⟨pre ++ (intDecimal n ++ post)⟩ := by
  apply string_ext
  show goFmt [GoArg.int n] (pre ++ '%' :: 'd' :: post) = _
  rw [goFmt_append_no_pct _ pre _ hpre, goFmt, if_pos rfl,
    fmtDirective_int_verb]
  simp [goFmt_no_pct post hpost]

/-- Formatting a single `%s` directive between `%`-free text. -/
theorem goSprintf_one_str (pre post : List Char) (x : String)
    (hpre : ¬ pre.contains '%') (hpost : ¬ post.contains '%') :
    goSprintf ⟨pre ++ '%' :: 's' :: post⟩ [GoArg.str x] =
      ⟨pre ++ (x.data ++ post)⟩ := by
  apply string_ext
  show goFmt [GoArg.str x] (pre ++ '%' :: 's' :: post) = _
  rw [goFmt_append_no_pct _ pre _ hpre, goFmt, if_pos rfl,
    fmtDirective_str_verb]
  simp [goFmt_no_pct post hpost]

/-! ### Claim theorems -/

/-- C4: `Merge(other)` appends, for every key in `other`, all of `other`'s
messages for that key after the receiver's existing messages, preserving
both lists' internal order (first conjunct: the receiver's entries each get
`other`'s list for their key appended, and `other`'s new keys follow with
their lists intact); merging `{key:[x]}` and then `{key:[y]}` into a fresh
aggregate yields `{key:[x,y]}` in that order (second conjunct); and merging
three aggregates in either grouping yields identical entries (third
conjunct).  The `keysNodup` hypotheses hold for every Go map. -/
theorem Merge_per_key_append_and_assoc (a b c : Validator) (key x y : String)
    (ha : keysNodup a.Errors) (hb : keysNodup b.Errors)
    (hc : keysNodup c.Errors) :
    (a.Merge b).Errors =
        a.Errors.map (fun p => (p.1, p.2 ++ lookupKey b.Errors p.1)) ++
          b.Errors.filter (fun p => !hasKey a.Errors p.1)
      ∧ (New.Merge ⟨[(key, [x])]⟩).Merge ⟨[(key, [y])]⟩ = ⟨[(key, [x, y])]⟩
      ∧ (a.Merge b).Merge c = a.Merge (b.Merge c) := by
  refine ⟨mergeUnder_id_char b.Errors a.Errors ha hb, ?_, ?_⟩
  · simp [Validator.Merge, mergeUnder, New, setAppend]
  · exact congrArg Validator.mk
      (mergeUnder_id_assoc a.Errors b.Errors c.Errors ha hb hc)

theorem Merge_per_key_append_and_assoc_witness :
    ((⟨[("a", ["A"])]⟩ : Validator).Merge
        ⟨[("a", ["B"]), ("b", ["C"])]⟩).Errors =
        [("a", ["A"])].map
          (fun p =>
            (p.1, p.2 ++ lookupKey [("a", ["B"]), ("b", ["C"])] p.1)) ++
          [("a", ["B"]), ("b", ["C"])].filter
            (fun p => !hasKey [("a", ["A"])] p.1)
      ∧ (New.Merge ⟨[("q", ["x"])]⟩).Merge ⟨[("q", ["y"])]⟩ =
          ⟨[("q", ["x", "y"])]⟩
      ∧ ((⟨[("a", ["A"])]⟩ : Validator).Merge
            ⟨[("a", ["B"]), ("b", ["C"])]⟩).Merge ⟨[("b", ["D"])]⟩ =
          (⟨[("a", ["A"])]⟩ : Validator).Merge
            ((⟨[("a", ["B"]), ("b", ["C"])]⟩ : Validator).Merge
              ⟨[("b", ["D"])]⟩) :=
  Merge_per_key_append_and_assoc ⟨[("a", ["A"])]⟩
    ⟨[("a", ["B"]), ("b", ["C"])]⟩ ⟨[("b", ["D"])]⟩ "q" "x" "y"
    (by decide) (by decide) (by decide)

/-- C3 counterexample: the claim says a non-aggregate error's own message
text is appended under the prefix key, but `Sub` routes it through
`Append`, whose printf formatting rewrites a trailing `%`: the stored
message for `Sub("other", "", plainError "50%")` is `"50%!(NOVERB)"`,
which differs from the error's message text `"50%"`. -/
theorem Sub_plain_error_percent_cex :
    lookupKey (New.Sub "other" "" (some (GoError.plain "50%"))).Errors
        "other" = ["50%!(NOVERB)"]
      ∧ ("50%!(NOVERB)" : String) ≠ "50%" := by
  constructor
  · have e : goSprintf "50%" [] = "50%!(NOVERB)" := by
      apply string_ext
      show goFmt [] "50%".data = _
      rw [show ("50%".data) = ['5', '0'] ++ ['%'] from rfl,
        goFmt_noverb ['5', '0'] (by decide)]
      rfl
    simp [Validator.Sub, Validator.Append, setAppend, lookupKey, e]
  · decide

/-- C3 (amended): `Sub(base, subKey, err)` does nothing when `err` is
absent or an aggregate without errors; for an aggregate with errors it
appends, for every key `k` in it, all of `k`'s messages (in order, after
any existing ones) under `prefix ++ "." ++ k` and touches no other key,
where `prefix` is `base` for an empty sub-key and `base[subKey]` otherwise;
for any other error it appends that error's message text, passed through
printf-style formatting, directly under `prefix`; and
`Sub("addr", "1", aggregateWithCityError)` records the message under
`"addr[1].city"`. -/
theorem Sub_spec (v : Validator) (key subKey : String) :
    v.Sub key subKey none = v
    ∧ (∀ sub : Validator, sub.HasErrors = false →
        v.Sub key subKey (some (GoError.validator sub)) = v)
    ∧ (∀ sub : Validator, keysNodup sub.Errors →
        ∀ k val, (k, val) ∈ sub.Errors →
        lookupKey (v.Sub key subKey (some (GoError.validator sub))).Errors
            (subPrefix key subKey ++ "." ++ k) =
          lookupKey v.Errors (subPrefix key subKey ++ "." ++ k) ++ val)
    ∧ (∀ (sub : Validator) (q : String),
        (∀ k ∈ sub.Errors.map Prod.fst,
          subPrefix key subKey ++ "." ++ k ≠ q) →
        lookupKey (v.Sub key subKey (some (GoError.validator sub))).Errors q
          = lookupKey v.Errors q)
    ∧ (∀ msg : String, v.Sub key subKey (some (GoError.plain msg)) =
        v.Append (subPrefix key subKey) msg [])
    ∧ New.Sub "addr" "1"
          (some (GoError.validator ⟨[("city", ["must be set"])]⟩)) =
        ⟨[("addr[1].city", ["must be set"])]⟩ := by
  have hkey : (if (subKey != "") = true
      then goSprintf "%s[%s]" [.str key, .str subKey] else key) =
      subPrefix key subKey := Sub_key_eq_subPrefix key subKey
  refine ⟨rfl, ?_, ?_, ?_, ?_, ?_⟩
  · intro sub h
    simp [Validator.Sub, h]
  · intro sub hnd k val hmem
    have hne : sub.HasErrors = true := by
      rcases hsub : sub.Errors with _ | ⟨p, t⟩
      · rw [hsub] at hmem; cases hmem
      · simp [Validator.HasErrors, hsub]
    show lookupKey (Validator.Sub v key subKey
      (some (GoError.validator sub))).Errors _ = _
    simp only [Validator.Sub, hkey, hne, Bool.not_true, Bool.false_eq_true,
      if_false, goSprintf_str_dot]
    have hinj : Function.Injective
        (fun k2 => subPrefix key subKey ++ "." ++ k2) :=
      fun k1 k2 h12 => append_dot_inj _ _ _ h12
    have hnodup : (sub.Errors.map
        (fun p => subPrefix key subKey ++ "." ++ p.1)).Nodup := by
      have : sub.Errors.map (fun p => subPrefix key subKey ++ "." ++ p.1) =
          (sub.Errors.map Prod.fst).map
            (fun k2 => subPrefix key subKey ++ "." ++ k2) := by
        rw [List.map_map]
        rfl
      rw [this]
      exact hnd.map hinj
    exact lookupKey_mergeUnder_hit _ v.Errors sub.Errors k val hnodup hmem
  · intro sub q hq
    cases hne : sub.HasErrors
    · simp [Validator.Sub, hne]
    · show lookupKey (Validator.Sub v key subKey
        (some (GoError.validator sub))).Errors _ = _
      simp only [Validator.Sub, hkey, hne, Bool.not_true,
        Bool.false_eq_true, if_false, goSprintf_str_dot]
      exact lookupKey_mergeUnder_miss _ v.Errors sub.Errors q
        (fun p hp => hq p.1 (List.mem_map_of_mem Prod.fst hp))
  · intro msg
    by_cases h : subKey = ""
    · simp [Validator.Sub, h, subPrefix]
    · simp [Validator.Sub, h, subPrefix, goSprintf_str_sq]
  · have h1 : goSprintf "%s[%s]" [.str "addr", .str "1"] = "addr[1]" := by
      rw [goSprintf_str_sq]
      rfl
    have h2 : goSprintf "%s.%s" [.str "addr[1]", .str "city"] =
        "addr[1].city" := by
      rw [goSprintf_str_dot]
      rfl
    simp [Validator.Sub, Validator.HasErrors, New, mergeUnder, h1, h2,
      setAppend]

theorem Sub_spec_witness :
    New.Sub "k" "" none = New
    ∧ (∀ sub : Validator, sub.HasErrors = false →
        New.Sub "k" "" (some (GoError.validator sub)) = New)
    ∧ (∀ sub : Validator, keysNodup sub.Errors →
        ∀ k val, (k, val) ∈ sub.Errors →
        lookupKey (New.Sub "k" "" (some (GoError.validator sub))).Errors
            (subPrefix "k" "" ++ "." ++ k) =
          lookupKey New.Errors (subPrefix "k" "" ++ "." ++ k) ++ val)
    ∧ (∀ (sub : Validator) (q : String),
        (∀ k ∈ sub.Errors.map Prod.fst, subPrefix "k" "" ++ "." ++ k ≠ q) →
        lookupKey (New.Sub "k" "" (some (GoError.validator sub))).Errors q
          = lookupKey New.Errors q)
    ∧ (∀ msg : String, New.Sub "k" "" (some (GoError.plain msg)) =
        New.Append (subPrefix "k" "") msg [])
    ∧ New.Sub "addr" "1"
          (some (GoError.validator ⟨[("city", ["must be set"])]⟩)) =
        ⟨[("addr[1].city", ["must be set"])]⟩ :=
  Sub_spec New "k" ""

/-- C9: `Append` passes the message through printf-style formatting before
storing it: a message containing no `%` is stored verbatim, while a message
containing a `%` directive with a letter verb, or ending in a bare `%`, is
stored with a formatting-error marker in place of the directive and so
differs from the literal message. -/
theorem Append_formats_message (v : Validator) (key : String) :
    (∀ s : String, ¬ s.data.contains '%' →
      (v.Append key s []).Errors = setAppend v.Errors key [s])
    ∧ (∀ (pre : List Char) (c : Char) (post : List Char),
        ¬ pre.contains '%' → c.isAlpha = true →
        (v.Append key ⟨pre ++ '%' :: c :: post⟩ []).Errors =
            setAppend v.Errors key
              [⟨pre ++ '%' :: '!' :: c :: "(MISSING)".data ++
                goFmt [] post⟩]
          ∧ goSprintf ⟨pre ++ '%' :: c :: post⟩ [] ≠
              (⟨pre ++ '%' :: c :: post⟩ : String))
    ∧ (∀ pre : List Char, ¬ pre.contains '%' →
        (v.Append key ⟨pre ++ ['%']⟩ []).Errors =
            setAppend v.Errors key [⟨pre ++ "%!(NOVERB)".data⟩]
          ∧ goSprintf ⟨pre ++ ['%']⟩ [] ≠ (⟨pre ++ ['%']⟩ : String)) := by
  refine ⟨?_, ?_, ?_⟩
  · intro s h
    rw [Append_Errors, goSprintf_no_pct s h]
  · intro pre c post hpre hc
    have hfmt : goSprintf ⟨pre ++ '%' :: c :: post⟩ [] =
        ⟨pre ++ '%' :: '!' :: c :: "(MISSING)".data ++ goFmt [] post⟩ := by
      apply string_ext
      exact goFmt_missing_verb pre c post hpre hc
    refine ⟨by rw [Append_Errors, hfmt], ?_⟩
    rw [hfmt]
    intro heq
    have hdata := congrArg String.data heq
    simp only [List.append_assoc] at hdata
    have := List.append_cancel_left hdata
    have hbang := (List.cons.injEq _ _ _ _).mp
      ((List.cons.injEq _ _ _ _).mp this).2
    exact absurd hbang.1.symm (alpha_not_special c hc).2.2.2.2.2
  · intro pre hpre
    have hfmt : goSprintf ⟨pre ++ ['%']⟩ [] =
        ⟨pre ++ "%!(NOVERB)".data⟩ := by
      apply string_ext
      exact goFmt_noverb pre hpre
    refine ⟨by rw [Append_Errors, hfmt], ?_⟩
    rw [hfmt]
    intro heq
    have hdata := congrArg String.data heq
    have := List.append_cancel_left hdata
    have hlen := congrArg List.length this
    simp at hlen

/-- C5 counterexample: with contradictory bounds `min = 5 > max = 3`, the
string `"abcde"` has character count equal to `min`, yet `Len` appends the
too-long error — refuting "a string whose character count equals min never
produces an error" as universally quantified over the bounds. -/
theorem Len_equals_min_errors_cex :
    New.Len "k" "abcde" 5 3 [] =
        some ⟨[("k", ["must be shorter than 3 characters"])]⟩
      ∧ ("abcde" : String).length = 5 := by
  constructor
  · have hmsg : goSprintf MessageLenShorter [.int 3] =
        "must be shorter than 3 characters" := by
      apply string_ext
      show goFmt [GoArg.int 3] MessageLenShorter.data = _
      rw [show MessageLenShorter.data =
        "must be shorter than ".data ++ '%' :: 'd' :: " characters".data
        from rfl]
      rw [goFmt_append_no_pct _ _ _ (by decide), goFmt, if_pos rfl,
        fmtDirective_int_verb]
      simp only [goFmt_no_pct " characters".data (by decide)]
      decide
    simp only [Validator.Len, getMessage]
    rw [if_neg (by decide), if_pos (by decide), if_neg (by decide), hmsg]
    simp [Validator.Append, setAppend,
      goSprintf_no_pct "must be shorter than 3 characters" (by decide)]
  · rfl

/-- C5 (amended): with the default message, `Len` appends an error iff the
character count is below `min` or (`max > 0` and) above `max`; it never
touches another key and appends exactly one message when it fires; when
the two bounds are consistent (`max = 0` or `min ≤ max`) a string whose
count equals `min`, or equals a positive `max`, never errors; and `max = 0`
imposes no upper bound. -/
theorem Len_spec (v : Validator) (key s : String) (min max : Int)
    (w : Validator) (h : v.Len key s min max [] = some w) :
    ((w = v) ↔
        ¬ (((s.length : Int) < min) ∨ (max > 0 ∧ (s.length : Int) > max)))
    ∧ (∀ q, q ≠ key → lookupKey w.Errors q = lookupKey v.Errors q)
    ∧ ((((s.length : Int) < min) ∨ (max > 0 ∧ (s.length : Int) > max)) →
        ∃ m, lookupKey w.Errors key = lookupKey v.Errors key ++ [m])
    ∧ ((max = 0 ∨ min ≤ max) →
        ((s.length : Int) = min ∨ (max > 0 ∧ (s.length : Int) = max)) →
        w = v)
    ∧ (max = 0 → ((w = v) ↔ ¬ (s.length : Int) < min)) := by
  simp only [Validator.Len, getMessage] at h
  by_cases h1 : (s.length : Int) < min
  · rw [if_pos h1, if_neg (by decide), Option.some.injEq] at h
    subst h
    refine ⟨?_, ?_, ?_, ?_, ?_⟩
    · constructor
      · intro he
        exact absurd he (Append_ne v key _ [])
      · intro hc
        exact absurd (Or.inl h1) hc
    · intro q hq
      exact lookupKey_Append_ne v key _ q [] hq
    · intro _
      exact ⟨_, lookupKey_Append_self v key _ []⟩
    · intro hcons hb
      exfalso
      rcases hb with hb | hb
      · omega
      · rcases hcons with hc | hc <;> omega
    · intro hm0
      constructor
      · intro he
        exact absurd he (Append_ne v key _ [])
      · intro hc
        exact absurd h1 hc
  · rw [if_neg h1] at h
    by_cases h2 : max > 0 ∧ (s.length : Int) > max
    · rw [if_pos h2, if_neg (by decide), Option.some.injEq] at h
      subst h
      refine ⟨?_, ?_, ?_, ?_, ?_⟩
      · constructor
        · intro he
          exact absurd he (Append_ne v key _ [])
        · intro hc
          exact absurd (Or.inr h2) hc
      · intro q hq
        exact lookupKey_Append_ne v key _ q [] hq
      · intro _
        exact ⟨_, lookupKey_Append_self v key _ []⟩
      · intro hcons hb
        exfalso
        rcases hb with hb | hb
        · rcases hcons with hc | hc <;> omega
        · omega
      · intro hm0
        exfalso
        omega
    · rw [if_neg h2, Option.some.injEq] at h
      subst h
      refine ⟨?_, ?_, ?_, ?_, ?_⟩
      · simp [h1, h2]
      · intro q _
        rfl
      · intro hc
        exact absurd hc (by simp [h1, h2])
      · intro _ _
        rfl
      · intro _
        simp [h1]

theorem Len_spec_witness :
    ((New = New) ↔
        ¬ (((("ab" : String).length : Int) < 1) ∨
          ((3 : Int) > 0 ∧ (("ab" : String).length : Int) > 3)))
    ∧ lookupKey New.Errors "z" = lookupKey New.Errors "z" := by
  have h := Len_spec New "k" "ab" 1 3 New (by decide)
  exact ⟨h.1, h.2.1 "z" (by decide)⟩

/-- C7 counterexample: `"#abcd"` is `#` followed by four hex digits — not
exactly 3 or exactly 6 — yet the regex `(?i)^#[0-9a-f]{3,6}$` accepts it,
so `HexColor` appends no error, refuting the claim's "exactly 3 or exactly
6". -/
theorem HexColor_four_digits_cex :
    New.HexColor "v" "#abcd" [] = some New := by decide

/-- C7 (amended): for every non-empty input with the default message,
`HexColor` appends no error iff the value is `#` followed by 3 to 6
(inclusive — also 4 or 5) case-insensitive hexadecimal digits; every other
non-empty value gets the color-code message appended under the key. -/
theorem HexColor_spec (v : Validator) (key s : String) (w : Validator)
    (hs : s ≠ "") (h : v.HexColor key s [] = some w) :
    ((w = v) ↔ ∃ rest, s.data = '#' :: rest ∧ 3 ≤ rest.length ∧
        rest.length ≤ 6 ∧ ∀ c ∈ rest, isHexDigitCI c)
    ∧ (¬ (∃ rest, s.data = '#' :: rest ∧ 3 ≤ rest.length ∧
          rest.length ≤ 6 ∧ ∀ c ∈ rest, isHexDigitCI c) →
        w = v.Append key MessageHexColor []) := by
  have hmatch : reValidHexColorMatch s = true ↔
      ∃ rest, s.data = '#' :: rest ∧ 3 ≤ rest.length ∧
        rest.length ≤ 6 ∧ ∀ c ∈ rest, isHexDigitCI c := by
    unfold reValidHexColorMatch
    cases hd : s.data with
    | nil => simp
    | cons c rest =>
      rw [show (match c :: rest with
          | [] => false
          | c2 :: rest2 =>
            if c2 = '#' then
              decide (3 ≤ rest2.length) && decide (rest2.length ≤ 6) &&
                rest2.all isHexDigitCI
            else false) =
          (if c = '#' then
            decide (3 ≤ rest.length) && decide (rest.length ≤ 6) &&
              rest.all isHexDigitCI
          else false) from rfl]
      by_cases hc : c = '#'
      · subst hc
        rw [if_pos rfl]
        simp only [Bool.and_eq_true, decide_eq_true_eq, List.all_eq_true]
        constructor
        · rintro ⟨⟨h3, h6⟩, hall⟩
          exact ⟨rest, rfl, h3, h6, hall⟩
        · rintro ⟨rest2, heq, h3, h6, hall⟩
          injection heq with h0 hr
          subst hr
          exact ⟨⟨h3, h6⟩, hall⟩
      · rw [if_neg hc]
        simp only [Bool.false_eq_true, false_iff]
        rintro ⟨rest2, heq, _⟩
        injection heq with h1 _
        exact hc h1
  have hsb : (s == "") = false := beq_eq_false_iff_ne.mpr hs
  simp only [Validator.HexColor, hsb, Bool.false_eq_true, if_false,
    getMessage] at h
  by_cases hm : reValidHexColorMatch s = true
  · rw [hm] at h
    simp only [Bool.not_true, Bool.false_eq_true, if_false,
      Option.some.injEq] at h
    subst h
    refine ⟨by simp [hmatch.mp hm], ?_⟩
    intro hno
    exact absurd (hmatch.mp hm) hno
  · have hm2 : reValidHexColorMatch s = false := by
      simpa using hm
    rw [hm2] at h
    simp only [Bool.not_false, if_true, Option.some.injEq] at h
    subst h
    refine ⟨?_, fun _ => rfl⟩
    constructor
    · intro he
      exact absurd he (Append_ne v key _ [])
    · intro hex
      exact absurd (hmatch.mpr hex) (by simp [hm2])

theorem HexColor_spec_witness :
    (New = New) ↔ ∃ rest, ("#fff" : String).data = '#' :: rest ∧
      3 ≤ rest.length ∧ rest.length ≤ 6 ∧ ∀ c ∈ rest, isHexDigitCI c :=
  (HexColor_spec New "v" "#fff" New (by decide) (by decide)).1

theorem Append_formats_message_witness :
    ((New.Append "k" "abc" []).Errors = setAppend New.Errors "k" ["abc"])
    ∧ ((New.Append "k" ⟨['a'] ++ '%' :: 's' :: ['b']⟩ []).Errors =
          setAppend New.Errors "k"
            [⟨['a'] ++ '%' :: '!' :: 's' :: "(MISSING)".data ++
              goFmt [] ['b']⟩]
        ∧ goSprintf ⟨['a'] ++ '%' :: 's' :: ['b']⟩ [] ≠
            (⟨['a'] ++ '%' :: 's' :: ['b']⟩ : String)) := by
  refine ⟨(Append_formats_message New "k").1 "abc" (by decide), ?_⟩
  exact (Append_formats_message New "k").2.1 ['a'] 's' ['b'] (by decide)
    (by decide)

theorem digit_not_sign (c : Char) (h : c.isDigit = true) :
    (c == '+') = false ∧ (c == '-') = false := by
  simp only [Char.isDigit, Bool.and_eq_true, decide_eq_true_eq] at h
  have hv : 48 ≤ c.toNat ∧ c.toNat ≤ 57 :=
    ⟨by exact_mod_cast h.1, by exact_mod_cast h.2⟩
  constructor <;>
    · apply beq_eq_false_iff_ne.mpr
      intro he
      subst he
      revert hv
      decide

theorem foldl_digits_eq_ofDigits (digits : List Char) (acc : Nat) :
    digits.foldl (fun a d => a * 10 + (d.toNat - '0'.toNat)) acc =
      Nat.ofDigits 10 ((digits.map digitVal).reverse) +
        acc * 10 ^ digits.length := by
  induction digits generalizing acc with
  | nil => simp [Nat.ofDigits]
  | cons d t ih =>
    simp only [List.foldl_cons, List.map_cons, List.reverse_cons,
      List.length_cons]
    rw [ih, Nat.ofDigits_append]
    simp only [List.length_reverse, List.length_map, Nat.ofDigits,
      digitVal]
    push_cast
    ring

/-- `strconv.ParseInt` on an unsigned run of decimal digits: the positional
value (clamped to `maxInt64` with an error when out of range). -/
theorem goParseInt64_digits (digits : List Char) (hne : digits ≠ [])
    (hall : ∀ c ∈ digits, c.isDigit = true) :
    goParseInt64 ⟨digits⟩ =
      (if 2 ^ 63 ≤ Nat.ofDigits 10 ((digits.map digitVal).reverse) then
        ((2 : Int) ^ 63 - 1, false)
      else ((Nat.ofDigits 10 ((digits.map digitVal).reverse) : Int),
        true)) := by
  rcases digits with _ | ⟨d, rest⟩
  · exact absurd rfl hne
  · have hd := digit_not_sign d (hall d (List.mem_cons_self d rest))
    unfold goParseInt64
    rw [show (String.mk (d :: rest)).data = d :: rest from rfl]
    simp only [hd.1, hd.2, Bool.false_eq_true, if_false]
    have hallb : (d :: rest).all Char.isDigit = true :=
      List.all_eq_true.mpr hall
    simp only [List.isEmpty_cons, hallb, Bool.not_true, Bool.or_false,
      Bool.false_eq_true, if_false]
    have hfold := foldl_digits_eq_ofDigits (d :: rest) 0
    simp only [Nat.zero_mul, Nat.add_zero, zero_mul, add_zero] at hfold
    rw [hfold]
    norm_cast
    simp

/-- `strconv.ParseInt` on a minus sign followed by decimal digits: the
negated positional value (clamped to `minInt64` with an error when out of
range). -/
theorem goParseInt64_neg_digits (digits : List Char) (hne : digits ≠ [])
    (hall : ∀ c ∈ digits, c.isDigit = true) :
    goParseInt64 ⟨'-' :: digits⟩ =
      (if 2 ^ 63 < Nat.ofDigits 10 ((digits.map digitVal).reverse) then
        (-(2 : Int) ^ 63, false)
      else (-(Nat.ofDigits 10 ((digits.map digitVal).reverse) : Int),
        true)) := by
  rcases digits with _ | ⟨d, rest⟩
  · exact absurd rfl hne
  · unfold goParseInt64
    rw [show (String.mk ('-' :: d :: rest)).data = '-' :: d :: rest
      from rfl]
    simp only [show (('-' : Char) == '+') = false from rfl,
      show (('-' : Char) == '-') = true from rfl, Bool.false_eq_true,
      if_false, if_true]
    have hallb : (d :: rest).all Char.isDigit = true :=
      List.all_eq_true.mpr hall
    simp only [List.isEmpty_cons, hallb, Bool.not_true, Bool.or_false,
      Bool.false_eq_true, if_false]
    have hfold := foldl_digits_eq_ofDigits (d :: rest) 0
    simp only [Nat.zero_mul, Nat.add_zero, zero_mul, add_zero] at hfold
    rw [hfold]
    norm_cast
    simp

/-- C6 counterexample: on the input `2^63` (one past `maxInt64`) the parse
fails with a range error, and Go's `ParseInt` returns the clamped maximum,
so `Integer` returns `9223372036854775807` — not 0 — while appending the
whole-number message; the claim says every parse failure returns 0. -/
theorem Integer_overflow_cex :
    New.Integer "k" "9223372036854775808" [] =
        some (New.Append "k" MessageInteger [], 9223372036854775807)
      ∧ New.Append "k" MessageInteger [] =
          ⟨[("k", ["must be a whole number"])]⟩
      ∧ (9223372036854775807 : Int) ≠ 0 := by
  refine ⟨?_, ?_, by decide⟩
  · have haux : goParseInt64 (goTrimSpace "9223372036854775808") =
        (9223372036854775807, false) := by decide
    simp only [Validator.Integer]
    rw [show (("9223372036854775808" : String) == "") = false from rfl]
    simp only [Bool.false_eq_true, if_false, haux, getMessage]
  · simp [Validator.Append, setAppend,
      goSprintf_no_pct MessageInteger (by decide)]
    decide

/-- C6 (amended): `Integer` trims surrounding whitespace and parses the
value as a base-10 signed 64-bit integer.  Empty input returns 0 with no
parse and no error; a trimmed value that is an in-range (optionally
negated) run of decimal digits returns its positional value with no error;
a syntactically invalid value returns 0 with the "must be a whole number"
message; an out-of-range value returns the clamped 64-bit bound — not
0 — with the message.  `Integer("6")` is 6 with no error, `" 6 "` trims to
6, `"1.2"` fails with 0. -/
theorem Integer_spec (v : Validator) (key : String) :
    (v.Integer key "" [] = some (v, 0))
    ∧ (∀ (s : String) (digits : List Char), s ≠ "" →
        (goTrimSpace s).data = digits → digits ≠ [] →
        (∀ c ∈ digits, c.isDigit = true) →
        Nat.ofDigits 10 ((digits.map digitVal).reverse) < 2 ^ 63 →
        v.Integer key s [] =
          some (v, (Nat.ofDigits 10 ((digits.map digitVal).reverse) : Int)))
    ∧ (∀ (s : String) (digits : List Char), s ≠ "" →
        (goTrimSpace s).data = '-' :: digits → digits ≠ [] →
        (∀ c ∈ digits, c.isDigit = true) →
        Nat.ofDigits 10 ((digits.map digitVal).reverse) ≤ 2 ^ 63 →
        v.Integer key s [] =
          some (v,
            -(Nat.ofDigits 10 ((digits.map digitVal).reverse) : Int)))
    ∧ (∀ (s : String) (digits : List Char), s ≠ "" →
        (goTrimSpace s).data = digits → digits ≠ [] →
        (∀ c ∈ digits, c.isDigit = true) →
        2 ^ 63 ≤ Nat.ofDigits 10 ((digits.map digitVal).reverse) →
        v.Integer key s [] =
          some (v.Append key MessageInteger [], 2 ^ 63 - 1))
    ∧ (v.Integer key "6" [] = some (v, 6))
    ∧ (v.Integer key " 6 " [] = some (v, 6))
    ∧ (v.Integer key "1.2" [] = some (v.Append key MessageInteger [], 0))
    ∧ (v.Integer key "asd" [] =
        some (v.Append key MessageInteger [], 0)) := by
  have econcrete : ∀ (s : String) (res : Int × Bool), s ≠ "" →
      goParseInt64 (goTrimSpace s) = res →
      v.Integer key s [] =
        (if res.2 then some (v, res.1)
         else some (v.Append key MessageInteger [], res.1)) := by
    intro s res hs hres
    simp only [Validator.Integer, beq_eq_false_iff_ne.mpr hs,
      Bool.false_eq_true, if_false, hres, getMessage]
  refine ⟨rfl, ?_, ?_, ?_, ?_, ?_, ?_, ?_⟩
  · intro s digits hs hdata hne hall hlt
    have hsmk : goTrimSpace s = ⟨digits⟩ := string_ext hdata
    have hp : goParseInt64 (goTrimSpace s) =
        ((Nat.ofDigits 10 ((digits.map digitVal).reverse) : Int), true) := by
      rw [hsmk, goParseInt64_digits digits hne hall, if_neg (by omega)]
    rw [econcrete s _ hs hp]
    rfl
  · intro s digits hs hdata hne hall hle
    have hsmk : goTrimSpace s = ⟨'-' :: digits⟩ := string_ext hdata
    have hp : goParseInt64 (goTrimSpace s) =
        (-(Nat.ofDigits 10 ((digits.map digitVal).reverse) : Int),
          true) := by
      rw [hsmk, goParseInt64_neg_digits digits hne hall, if_neg (by omega)]
    rw [econcrete s _ hs hp]
    rfl
  · intro s digits hs hdata hne hall hge
    have hsmk : goTrimSpace s = ⟨digits⟩ := string_ext hdata
    have hp : goParseInt64 (goTrimSpace s) =
        ((2 : Int) ^ 63 - 1, false) := by
      rw [hsmk, goParseInt64_digits digits hne hall, if_pos hge]
    rw [econcrete s _ hs hp]
    rfl
  · rw [econcrete "6" (6, true) (by decide) (by decide)]
    rfl
  · rw [econcrete " 6 " (6, true) (by decide) (by decide)]
    rfl
  · rw [econcrete "1.2" (0, false) (by decide) (by decide)]
    rfl
  · rw [econcrete "asd" (0, false) (by decide) (by decide)]
    rfl

theorem Integer_spec_witness :
    (New.Integer "k" "" [] = some (New, 0))
    ∧ (New.Integer "k" "77" [] =
        some (New,
          (Nat.ofDigits 10 ((['7', '7'].map digitVal).reverse) : Int)))
    ∧ (New.Integer "k" "6" [] = some (New, 6)) := by
  have h := Integer_spec New "k"
  exact ⟨h.1, h.2.1 "77" ['7', '7'] (by decide) (by decide) (by decide)
    (by decide) (by decide), h.2.2.2.2.1⟩

/-- C10: for a slice dispatched to `Required`'s reflection fallback, the
"must be set" message is appended iff the slice is empty or every element
is its element type's zero value under `reflect.Value.IsZero`; one
non-zero element suffices to append nothing; no other key is touched. -/
theorem Required_slice_fallback (v : Validator) (key : String)
    (elems : List GoValue) (w : Validator)
    (h : v.Required key (GoValue.slice elems) [] = some w) :
    ((w ≠ v) ↔ elems.all reflectIsZero = true)
    ∧ (elems.all reflectIsZero = true →
        lookupKey w.Errors key = lookupKey v.Errors key ++ ["must be set"])
    ∧ (elems.all reflectIsZero = false → w = v)
    ∧ (∀ q, q ≠ key → lookupKey w.Errors q = lookupKey v.Errors q) := by
  have hmsg : goSprintf MessageRequired [] = "must be set" :=
    goSprintf_no_pct MessageRequired (by decide)
  simp only [Validator.Required, getMessage] at h
  by_cases hb : elems.all reflectIsZero = true
  · have hw : w = v.Append key MessageRequired [] := by
      rcases he : elems.isEmpty with _ | _
      · rw [he] at h
        simp only [Bool.false_eq_true, if_false, hb, if_true,
          Option.some.injEq] at h
        exact h.symm
      · rw [he] at h
        simp only [if_true, Option.some.injEq] at h
        exact h.symm
    subst hw
    refine ⟨?_, ?_, ?_, ?_⟩
    · simp [Append_ne v key MessageRequired [], hb]
    · intro _
      rw [lookupKey_Append_self, hmsg]
    · intro hcon
      rw [hcon] at hb
      cases hb
    · intro q hq
      exact lookupKey_Append_ne v key _ q [] hq
  · have hbf : elems.all reflectIsZero = false := by
      simpa using hb
    have hene : elems.isEmpty = false := by
      rcases elems with _ | ⟨e, t⟩
      · cases hbf
      · rfl
    rw [hene] at h
    simp only [Bool.false_eq_true, if_false, hbf, Option.some.injEq] at h
    subst h
    refine ⟨?_, ?_, fun _ => rfl, fun q _ => rfl⟩
    · simp [hbf]
    · intro hcon
      rw [hcon] at hbf
      cases hbf

theorem Required_slice_fallback_witness :
    ((New ≠ New) ↔ ([GoValue.str "x"].all reflectIsZero = true))
    ∧ lookupKey New.Errors "z" = lookupKey New.Errors "z" := by
  have h := Required_slice_fallback New "k" [GoValue.str "x"] New (by decide)
  exact ⟨h.1, h.2.2.2 "z" (by decide)⟩

/-- C8 counterexample: `Boolean` consults its override messages only on
the failure path, so a recognized truthy input with two override messages
returns normally — no panic — contradicting "for every such misuse call
... the call does not return normally". -/
theorem Boolean_two_messages_returns_cex :
    New.Boolean "k" "yes" ["a", "b"] = some (New, true) := by decide

/-- C8 (amended): `Required` panics (`none`) on a value of an unsupported
type no matter the messages; the checks that resolve their messages before
any other work — `Required`, `Len`, `Range`, `Date`, `Exclude`,
`ExcludeInt64` — panic on more than one override message, appending
nothing; but a check that returns before reaching `getMessage` returns
normally even with two messages: the string-format checks return on empty
input, `Include`/`IncludeInt64` on an empty candidate list, and `Boolean`
(and similar) on a successfully validated value. -/
theorem panic_spec (v : Validator) (key : String) :
    (∀ (b : Bool) (msgs : List String),
        v.Required key (GoValue.other b) msgs = none)
    ∧ (∀ (val : GoValue) (m1 m2 : String) (rest : List String),
        v.Required key val (m1 :: m2 :: rest) = none)
    ∧ (∀ (s : String) (min max : Int) (m1 m2 : String)
        (rest : List String),
        v.Len key s min max (m1 :: m2 :: rest) = none)
    ∧ (∀ (value min max : Int) (m1 m2 : String) (rest : List String),
        v.Range key value min max (m1 :: m2 :: rest) = none)
    ∧ (∀ (tp : String → String → Bool) (s layout m1 m2 : String)
        (rest : List String),
        v.Date tp key s layout (m1 :: m2 :: rest) = none)
    ∧ (∀ (s : String) (l : List String) (m1 m2 : String)
        (rest : List String),
        v.Exclude key s l (m1 :: m2 :: rest) = none)
    ∧ (∀ (value : Int) (l : List Int) (m1 m2 : String)
        (rest : List String),
        v.ExcludeInt64 key value l (m1 :: m2 :: rest) = none)
    ∧ (∀ (isL : Char → Bool) (m1 m2 : String) (rest : List String),
        v.Domain isL key "" (m1 :: m2 :: rest) = some v)
    ∧ (∀ (m1 m2 : String) (rest : List String),
        v.HexColor key "" (m1 :: m2 :: rest) = some v)
    ∧ (∀ (m1 m2 : String) (rest : List String),
        v.Phone key "" (m1 :: m2 :: rest) = some v)
    ∧ (∀ (m1 m2 : String) (rest : List String),
        v.Integer key "" (m1 :: m2 :: rest) = some (v, 0))
    ∧ (∀ (parse : String → MailAddress × Bool) (m1 m2 : String)
        (rest : List String),
        v.Email parse key "" (m1 :: m2 :: rest) = some (v, ⟨"", ""⟩))
    ∧ (∀ (s : String) (m1 m2 : String) (rest : List String),
        v.Include key s [] (m1 :: m2 :: rest) = some v)
    ∧ (∀ (value : Int) (m1 m2 : String) (rest : List String),
        v.IncludeInt64 key value [] (m1 :: m2 :: rest) = some v)
    ∧ (v.Boolean key "yes" ["a", "b"] = some (v, true)) := by
  refine ⟨?_, fun _ _ _ _ => rfl, fun _ _ _ _ _ _ => rfl,
    fun _ _ _ _ _ _ => rfl, fun _ _ _ _ _ _ => rfl,
    fun _ _ _ _ _ => rfl, fun _ _ _ _ _ => rfl, fun _ _ _ _ => rfl,
    fun _ _ _ => rfl, fun _ _ _ => rfl, fun _ _ _ => rfl,
    fun _ _ _ _ => rfl, fun _ _ _ _ => rfl, fun _ _ _ _ => rfl, rfl⟩
  intro b msgs
  rcases msgs with _ | ⟨m1, _ | ⟨m2, rest⟩⟩ <;> rfl

/-- C1 counterexample: `Len` has no empty-input skip: with `min = 1` the
empty string fails the minimum-length check and a message is appended, so
the aggregate changes — refuting "calling the check with the empty form of
its input type appends no error and leaves the aggregate unchanged" for
the check list that includes `Len`. -/
theorem Len_empty_appends_cex :
    New.Len "k" "" 1 0 [] =
      some ⟨[("k", ["must be longer than 1 characters"])]⟩ := by
  have hmsg : goSprintf MessageLenLonger [.int 1] =
      "must be longer than 1 characters" := by
    apply string_ext
    show goFmt [GoArg.int 1] MessageLenLonger.data = _
    rw [show MessageLenLonger.data =
      "must be longer than ".data ++ '%' :: 'd' :: " characters".data
      from rfl]
    rw [goFmt_append_no_pct _ _ _ (by decide), goFmt, if_pos rfl,
      fmtDirective_int_verb]
    simp only [goFmt_no_pct " characters".data (by decide)]
    decide
  simp only [Validator.Len, getMessage]
  rw [if_pos (by decide), if_neg (by decide), hmsg]
  simp [Validator.Append, setAppend,
    goSprintf_no_pct "must be longer than 1 characters" (by decide)]

/-- C1 (amended): the checks with an explicit empty-input skip — `Domain`,
`URL`, `Email`, `IPv4`, `HexColor`, `Phone`, `Integer`, `Boolean` — leave
the aggregate unchanged on the empty string for every message list and
every external parser, the value-returning ones yielding their zero value
without consulting the parser; but `Len`, `Date`, `Include`, `Exclude`,
`Range`, `IncludeInt64` and `ExcludeInt64` have no such skip and do append
on empty/zero input when their constraint is violated (`min ≥ 1`, a layout
the empty string fails, a non-empty candidate list, an excluded zero). -/
theorem empty_input_spec (v : Validator) (key : String) :
    (∀ (isL : Char → Bool) (msgs : List String),
        v.Domain isL key "" msgs = some v)
    ∧ (∀ (intf : URLIntf) (isL : Char → Bool) (msgs : List String),
        v.URL intf isL key "" msgs = some (v, none))
    ∧ (∀ (parse : String → MailAddress × Bool) (msgs : List String),
        v.Email parse key "" msgs = some (v, ⟨"", ""⟩))
    ∧ (∀ (pIP : String → Option (List Nat))
        (t4 : List Nat → Option (List Nat)) (msgs : List String),
        v.IPv4 pIP t4 key "" msgs = some (v, some []))
    ∧ (∀ msgs : List String, v.HexColor key "" msgs = some v)
    ∧ (∀ msgs : List String, v.Phone key "" msgs = some v)
    ∧ (∀ msgs : List String, v.Integer key "" msgs = some (v, 0))
    ∧ (∀ msgs : List String, v.Boolean key "" msgs = some (v, false))
    ∧ (v.Len key "" 1 0 [] =
        some (v.Append key (goSprintf MessageLenLonger [.int 1]) []))
    ∧ (∀ (tp : String → String → Bool) (layout : String),
        tp layout "" = false →
        v.Date tp key "" layout [] =
          some (v.Append key (goSprintf MessageDate [.str layout]) []))
    ∧ (v.Include key "" ["a"] [] =
        some (v.Append key
          (goSprintf MessageInclude
            [.str (String.intercalate ", " ["a"])]) []))
    ∧ (v.Exclude key "" [""] [] =
        some (v.Append key (goSprintf MessageExclude [.str ""]) []))
    ∧ (v.Range key 0 1 0 [] =
        some (v.Append key (goSprintf MessageRangeHigher [.int 1]) []))
    ∧ (v.IncludeInt64 key 0 [1] [] =
        some (v.Append key
          (goSprintf MessageInclude
            [.str (String.intercalate ", " ([(1 : Int)].map toString))])
          []))
    ∧ (v.ExcludeInt64 key 0 [0] [] =
        some (v.Append key
          (goSprintf MessageExclude [.str (toString (0 : Int))]) [])) := by
  refine ⟨fun _ _ => rfl, fun _ _ _ => rfl, fun _ _ => rfl,
    fun _ _ _ => rfl, fun _ => rfl, fun _ => rfl, fun _ => rfl,
    fun _ => rfl, ?_, ?_, rfl, rfl, ?_, rfl, rfl⟩
  · simp only [Validator.Len, getMessage]
    rw [if_pos (by decide), if_neg (by decide)]
  · intro tp layout htp
    simp only [Validator.Date, getMessage, htp, Bool.false_eq_true,
      if_false]
    rw [if_neg (by decide)]
  · simp only [Validator.Range, getMessage]
    rw [if_neg (by decide), if_pos (by decide), if_neg (by decide)]

theorem empty_input_spec_witness :
    New.Date (fun _ _ => false) "k" "" "L" [] =
        some (New.Append "k" (goSprintf MessageDate [.str "L"]) [])
      ∧ New.Domain (fun _ => false) "k" "" [] = some New := by
  have h := empty_input_spec New "k"
  exact ⟨h.2.2.2.2.2.2.2.2.2.1 (fun _ _ => false) "L" rfl,
    h.1 (fun _ => false) []⟩

/-- C2 counterexample: `Range` tests its two bounds in independent `if`
statements, so with `min = 5 > max = 2` and value 3 a single call appends
two messages under the key — refuting "appends exactly one message". -/
theorem Range_two_messages_cex :
    runCheck (Check.range "k" 3 5 2 []) New =
      some ⟨[("k", ["must be 5 or higher", "must be 2 or lower"])]⟩ := by
  have h1 : goSprintf MessageRangeHigher [.int 5] = "must be 5 or higher" := by
    apply string_ext
    show goFmt [GoArg.int 5] MessageRangeHigher.data = _
    rw [show MessageRangeHigher.data =
      "must be ".data ++ '%' :: 'd' :: " or higher".data from rfl]
    rw [goFmt_append_no_pct _ _ _ (by decide), goFmt, if_pos rfl,
      fmtDirective_int_verb]
    simp only [goFmt_no_pct " or higher".data (by decide)]
    decide
  have h2 : goSprintf MessageRangeLower [.int 2] = "must be 2 or lower" := by
    apply string_ext
    show goFmt [GoArg.int 2] MessageRangeLower.data = _
    rw [show MessageRangeLower.data =
      "must be ".data ++ '%' :: 'd' :: " or lower".data from rfl]
    rw [goFmt_append_no_pct _ _ _ (by decide), goFmt, if_pos rfl,
      fmtDirective_int_verb]
    simp only [goFmt_no_pct " or lower".data (by decide)]
    decide
  show Validator.Range New "k" 3 5 2 [] = _
  simp only [Validator.Range, getMessage]
  rw [if_pos (by decide), if_neg (by decide), if_pos (by decide),
    if_neg (by decide), h1, h2]
  simp [Validator.Append, setAppend,
    goSprintf_no_pct "must be 5 or higher" (by decide),
    goSprintf_no_pct "must be 2 or lower" (by decide)]

/-- C2 (amended): a non-panicking call of any check function either leaves
the aggregate's entries literally unchanged, or appends one message to the
ordered list for its own field key — except `Range`, which can append two
messages in one call (one per violated bound) — and in every case no other
key's list changes. -/
theorem runCheck_frame (c : Check) (v w : Validator)
    (h : runCheck c v = some w) :
    ((w = v)
      ∨ (∃ m : String, w.Errors = setAppend v.Errors c.key [m])
      ∨ (c.isRange = true ∧
          ∃ m1 m2 : String,
            w.Errors = setAppend v.Errors c.key [m1, m2]))
    ∧ (∀ q, q ≠ c.key → lookupKey w.Errors q = lookupKey v.Errors q) := by
  have frame : ∀ P : Prop, ((w = v)
      ∨ (∃ m : String, w.Errors = setAppend v.Errors c.key [m])
      ∨ (P ∧ ∃ m1 m2 : String,
          w.Errors = setAppend v.Errors c.key [m1, m2])) →
      ∀ q, q ≠ c.key → lookupKey w.Errors q = lookupKey v.Errors q := by
    rintro P (rfl | ⟨m, hm⟩ | ⟨_, m1, m2, hm⟩) q hq
    · rfl
    · rw [hm]
      exact lookupKey_setAppend_ne _ _ _ _ hq
    · rw [hm]
      exact lookupKey_setAppend_ne _ _ _ _ hq
  suffices main : (w = v)
      ∨ (∃ m : String, w.Errors = setAppend v.Errors c.key [m])
      ∨ (c.isRange = true ∧
          ∃ m1 m2 : String,
            w.Errors = setAppend v.Errors c.key [m1, m2]) by
    exact ⟨main, frame _ main⟩
  cases c <;>
    (simp only [runCheck] at h
     first
       | unfold Validator.Required at h
       | unfold Validator.ExcludeInt64 at h
       | unfold Validator.IncludeInt64 at h
       | unfold Validator.Exclude at h
       | unfold Validator.Include at h
       | unfold Validator.Domain at h
       | unfold Validator.URL at h
       | unfold Validator.Email at h
       | unfold Validator.IPv4 at h
       | unfold Validator.HexColor at h
       | unfold Validator.Len at h
       | unfold Validator.Integer at h
       | unfold Validator.Boolean at h
       | unfold Validator.Date at h
       | unfold Validator.Phone at h
       | unfold Validator.Range at h
     repeat' split at h
     all_goals try simp only [Option.map_none', Option.map_some',
       Option.some.injEq] at h
     repeat' split at h
     all_goals try simp only [Option.some.injEq] at h
     all_goals try first
       | cases h
       | subst h
     all_goals first
       | exact Or.inl rfl
       | exact Or.inr (Or.inl ⟨_, rfl⟩)
       | exact Or.inr (Or.inr ⟨rfl, _, _,
           setAppend_setAppend v.Errors _ _ _⟩))

/-- Witness for `runCheck_frame`: a concrete in-bounds `Len` call returns
the aggregate unchanged and touches no other key. -/
theorem runCheck_frame_witness :
    ((New = New)
      ∨ (∃ m : String,
          New.Errors = setAppend New.Errors (Check.len "k" "ab" 1 3 []).key [m])
      ∨ ((Check.len "k" "ab" 1 3 []).isRange = true ∧
          ∃ m1 m2 : String,
            New.Errors =
              setAppend New.Errors (Check.len "k" "ab" 1 3 []).key [m1, m2]))
    ∧ (∀ q, q ≠ (Check.len "k" "ab" 1 3 []).key →
        lookupKey New.Errors q = lookupKey New.Errors q) :=
  runCheck_frame (Check.len "k" "ab" 1 3 []) New New (by decide)

end Validate
